import Mathlib

/-!
Verification development for the motif-ts workflow orchestration engine.

Shallow embedding of the relevant program parts:
- the Redux DevTools middleware (packages/middleware/src/devtools/index.ts),
- the AI executor (packages/ai createAIExecutor),
- the expression compilation LRU cache (packages/expression/src/index.ts),
- the core workflow engine (step factory, transition engine, effect
  scheduler, async hook race handling, history and finish logic).

The core engine implementation itself is not part of the available
sources (only its type declarations, tests, README and consumers are),
so the engine definitions below are modelled from the specification
text, as indicated in the doc comment of each such definition.
-/

namespace MotifTs

/-! ## DevTools middleware (packages/middleware/src/devtools/index.ts) -/

namespace Devtools

/-- The browser window object as seen by the middleware: the only field
read is the optional Redux DevTools extension slot
(window.__REDUX_DEVTOOLS_EXTENSION__).  The extension object itself is
abstract; its presence is what decides the branch. -/
structure WindowObj (Ext : Type) where
  reduxDevtoolsExtension : Option Ext

/-- Observable side effects the middleware performs on its environment:
whether it connected to the devtools extension, whether it called init,
and how many subscriptions it registered on the workflow via
subscribeStepChange. -/
structure DevtoolsEffects where
  connected : Bool
  initialized : Bool
  subscriptionsAdded : Nat
deriving DecidableEq, Repr

/-- Devtools options: only the optional name field exists. -/
structure DevtoolsOptions where
  name : Option String
deriving DecidableEq, Repr

/-- Translation of the guard at the top of devtoolsMiddleware:
ext is window.__REDUX_DEVTOOLS_EXTENSION__ when typeof window is not
undefined, and undefined otherwise. -/
def extensionOf {Ext : Type} (window : Option (WindowObj Ext)) : Option Ext :=
  match window with
  | none => none
  | some w => w.reduxDevtoolsExtension

/-- Translation of devtoolsMiddleware.  The workflow value is abstract
(type Wf).  When the extension is unavailable the function returns the
original workflow before connecting, initializing or subscribing; when
it is available it connects, calls devtools.init once, registers exactly
one subscribeStepChange subscription, and still returns the same
workflow object at the end. -/
def devtoolsMiddleware {Ext Wf : Type} (window : Option (WindowObj Ext))
    (workflow : Wf) (_options : DevtoolsOptions) : Wf × DevtoolsEffects :=
  match extensionOf window with
  | none => (workflow, ⟨false, false, 0⟩)
  | some _ => (workflow, ⟨true, true, 1⟩)

end Devtools

/-! ## AI executor (createAIExecutor in the ai package) -/

namespace AIExec

/-- A property value on the current step public API: either a callable
action, whose invocation either returns a value or throws (modelled by
Except with the thrown error message), or a non function value. -/
inductive ApiValue (V : Type) where
  | action (run : Except String V)
  | plainValue
deriving Repr

/-- Result type returned by AIExecutor.execute. -/
structure ToolResult (V : Type) where
  success : Bool
  result : Option V
  error : Option String
deriving Repr, DecidableEq

/-- Splitting a character list at the dot character, as
String.prototype.split does with separator "." (always at least one
group, empty groups kept). -/
def splitOnDot : List Char → List (List Char)
  | [] => [[]]
  | c :: cs =>
    match splitOnDot cs, decide (c = '.') with
    | rest, true => [] :: rest
    | [], false => [[c]]
    | g :: gs, false => (c :: g) :: gs

/-- Translation of parseToolName: split the tool name on the dots and
take the last part.  In JavaScript String.split always yields a
nonempty array, so the access parts[parts.length - 1] is modelled with
a default that is never reached. -/
def parseToolName (toolName : String) : String :=
  String.mk ((splitOnDot toolName.toList).getLastD toolName.toList)

/-- Function valued keys of the API object in declaration order, as
computed by Object.keys(api).filter(k => typeof api[k] === 'function'). -/
def functionKeys {V : Type} (api : List (String × ApiValue V)) : List String :=
  (api.filter (fun p => match p.2 with
    | ApiValue.action _ => true
    | ApiValue.plainValue => false)).map Prod.fst

/-- Property lookup api[actionName] on the API object (first binding
wins, as for a JavaScript object literal with unique keys). -/
def lookupApi {V : Type} (api : List (String × ApiValue V)) (k : String) :
    Option (ApiValue V) :=
  match api.find? (fun p => p.1 == k) with
  | some p => some p.2
  | none => none

/-- True when the parsed action name resolves to a function valued
property of the API object, mirroring typeof action === 'function'. -/
def isFunctionAt {V : Type} (api : List (String × ApiValue V)) (k : String) : Bool :=
  match lookupApi api k with
  | some (ApiValue.action _) => true
  | _ => false

/-- Translation of the execute closure of createAIExecutor.  The
surrounding try/catch is the Except plumbing: a throwing
getCurrentStep and a throwing action both land in the catch branch,
which produces a failure ToolResult carrying the error message.  The
function is total: every input yields a ToolResult. -/
def execute {V : Type} (getCurrentStepResult : Except String (List (String × ApiValue V)))
    (toolName : String) : ToolResult V :=
  match getCurrentStepResult with
  | Except.error e => ⟨false, none, some e⟩
  | Except.ok api =>
    match lookupApi api (parseToolName toolName) with
    | some (ApiValue.action (Except.ok v)) => ⟨true, some v, none⟩
    | some (ApiValue.action (Except.error e)) => ⟨false, none, some e⟩
    | _ =>
      ⟨false, none,
        some ("Unknown action: " ++ parseToolName toolName ++ ". Available actions: " ++
          String.intercalate ", " (functionKeys api))⟩

end AIExec

/-! ## Step definition and instance factory (core engine, spec section 4.1) -/

namespace StepFactory

/-- Modelled from the spec: the StepDefinition blueprint of the core
engine, whose implementation is not among the available sources.  A
kind tag, a config validator standing for the injected configSchema
with safeParse semantics (true means the config parses), and an
optional store factory producing the initial store state. -/
structure StepDefinition (Cfg V : Type) where
  kind : String
  configSchema : Cfg → Bool
  createStore : Option V

/-- Modelled from the spec: the store arena.  Store handles are stable
indices into a flat heap, so that two instances can own distinct,
independently mutable store cells. -/
structure StoreWorld (V : Type) where
  heap : List V
deriving Repr, DecidableEq

/-- Modelled from the spec: a StepInstance as produced by the creator:
identity id = kind and name joined by a colon, the resolved config, and
an optional store handle pointing at a fresh heap cell. -/
structure StepInstance (Cfg V : Type) where
  id : String
  kind : String
  name : String
  config : Cfg
  storeHandle : Option Nat

/-- Creation failure: the config failed its schema. -/
inductive CreationError where
  | validationError
deriving Repr, DecidableEq

/-- Modelled from the spec: creator(name?, config?): validate config
against configSchema (ValidationError when invalid), default the name
to the kind, set id to kind and name joined by a colon, and initialize
a fresh store cell from the store factory when one is declared. -/
def creator {Cfg V : Type} (d : StepDefinition Cfg V) (nameArg : Option String)
    (config : Cfg) (w : StoreWorld V) :
    Except CreationError (StepInstance Cfg V × StoreWorld V) :=
  if d.configSchema config then
    match d.createStore with
    | none =>
      Except.ok
        (⟨d.kind ++ ":" ++ nameArg.getD d.kind, d.kind, nameArg.getD d.kind, config, none⟩, w)
    | some s0 =>
      Except.ok
        (⟨d.kind ++ ":" ++ nameArg.getD d.kind, d.kind, nameArg.getD d.kind, config,
          some w.heap.length⟩,
          ⟨w.heap ++ [s0]⟩)
  else
    Except.error CreationError.validationError

/-- Reading a store cell through a handle. -/
def readStore {V : Type} (w : StoreWorld V) (h : Nat) : Option V :=
  w.heap[h]?

/-- Writing a store cell through a handle (mutation of one instance
store). -/
def writeStore {V : Type} (w : StoreWorld V) (h : Nat) (v : V) : StoreWorld V :=
  ⟨w.heap.set h v⟩

end StepFactory

/-! ## Effect scheduler (core engine, spec section 4.4) -/

namespace Effects

/-- Events produced for one effect during a rebuild: running its
previous cleanup, and re-executing the effect function. -/
inductive EffEvent where
  | cleanup
  | run
deriving Repr, DecidableEq

/-- Modelled from the spec: the decision whether an effect re-executes
on a rebuild.  deps omitted (none) means re-execute on every rebuild;
deps present means re-execute exactly when the dependency array differs
from the snapshot of the previous build by shallow (reference or
primitive) inequality, modelled as equality of the abstract dependency
values, compared pointwise with length. -/
def shouldRerun {V : Type} [DecidableEq V] (prev next : Option (List V)) : Bool :=
  match next with
  | none => true
  | some nd =>
    match prev with
    | none => true
    | some pd => decide (¬ pd = nd)

/-- Modelled from the spec: how many times the effect function has
executed after build b, where depsAt gives the dependency array the
body passes to effect at each build (build 0 is the first build, each
later build is a rebuild triggered by a store update).  The first build
always executes the effect; a rebuild re-executes it exactly when
shouldRerun says so. -/
def runsAfter {V : Type} [DecidableEq V] (depsAt : Nat → Option (List V)) : Nat → Nat
  | 0 => 1
  | b + 1 => runsAfter depsAt b + (if shouldRerun (depsAt b) (depsAt (b + 1)) then 1 else 0)

/-- Modelled from the spec: the events a single rebuild emits for one
effect: when the effect re-executes, its previous cleanup runs first,
then the effect function runs; otherwise nothing happens. -/
def rebuildEvents {V : Type} [DecidableEq V] (prev next : Option (List V)) : List EffEvent :=
  if shouldRerun prev next then [EffEvent.cleanup, EffEvent.run] else []

end Effects

/-! ## Async hook races (core engine, spec sections 4.5 and 9) -/

namespace Hooks

/-- Modelled from the spec: the async hook bookkeeping of the engine.
Each pending hook computation is stamped with the generation current at
dispatch time; gen is the monotonically increasing generation counter
bumped whenever a node is entered or exited; stored holds resolved
cleanups awaiting the exit of the current node; log records every
executed cleanup, in execution order, by hook id. -/
structure HookState where
  gen : Nat
  pending : List (Nat × Nat)
  stored : List (Nat × Nat)
  log : List Nat
deriving Repr, DecidableEq

/-- Operations affecting the async hook bookkeeping: entering a node,
exiting the current node (phase three of the cleanup sequence: run the
stored transitionIn cleanups), dispatching a pending hook computation,
and its eventual resolution or rejection. -/
inductive HookOp where
  | enter
  | exit
  | dispatch (id : Nat)
  | resolve (id : Nat)
  | reject (id : Nat)
deriving Repr, DecidableEq

/-- Modelled from the spec: one scheduling step.  dispatch stamps the
task with the current generation.  resolve compares the stamp against
the current generation: if they match, the node is still current and
the cleanup is stored for later, exactly as a synchronous cleanup; if
they differ, the node has already exited and the cleanup runs
immediately.  exit runs all stored cleanups and bumps the generation.
reject discards the task without running anything and without raising:
rejections are caught and swallowed, so step is total. -/
def step (st : HookState) : HookOp → HookState
  | HookOp.enter => { st with gen := st.gen + 1 }
  | HookOp.exit =>
    { st with gen := st.gen + 1, stored := [], log := st.log ++ st.stored.map Prod.fst }
  | HookOp.dispatch id => { st with pending := st.pending ++ [(id, st.gen)] }
  | HookOp.resolve id =>
    match st.pending.find? (fun p => p.1 == id) with
    | none => st
    | some p =>
      if p.2 = st.gen then
        ⟨st.gen, st.pending.eraseP (fun q => q.1 == id), st.stored ++ [p], st.log⟩
      else
        ⟨st.gen, st.pending.eraseP (fun q => q.1 == id), st.stored, st.log ++ [p.1]⟩
  | HookOp.reject id => { st with pending := st.pending.eraseP (fun q => q.1 == id) }

/-- Running a list of scheduling operations. -/
def run (st : HookState) (ops : List HookOp) : HookState :=
  ops.foldl step st

end Hooks

/-! ## Transition engine (core engine, spec sections 4.3, 4.6, 4.7) -/

namespace Engine

/-- Modelled from the spec: the edge variants.  A default edge always
allows the transition and passes the output through; a conditional edge
allows it exactly when its guard accepts the output; a transform edge
maps the output to the next input and may fail (a throwing transform is
modelled as none). -/
inductive EdgeType (V : Type) where
  | default
  | conditional (guard : V → Bool)
  | transform (transform : V → Option V)

/-- Modelled from the spec: a directed edge between registered step
instances.  The source fields are named from and to; src and dst here
because from is reserved. -/
structure Edge (V : Type) where
  src : String
  dst : String
  unidirectional : Bool
  etype : EdgeType V

/-- Transition status of the running context, as declared in the core
type declarations (workflow/type.ts). -/
inductive TransitionStatus where
  | transitionIn
  | ready
  | transitionOut
deriving Repr, DecidableEq

/-- Modelled from the spec: the transient WorkflowContext, existing
only while the workflow runs. -/
structure Ctx (V : Type) where
  currentNode : String
  currentInput : Option V
  status : TransitionStatus

/-- Modelled from the spec: one History Stack entry: the exited node,
its originally recorded input, and the deferred transitionOut cleanups
to replay when backward navigation re-enters it (cleanups are
identified by numeric tokens). -/
structure HistEntry (V : Type) where
  node : String
  input : Option V
  outCleanupOnBack : List Nat

/-- Observable events of the engine, in execution order: running the
transitionIn hooks of a node, building its body, a rebuild, the three
cleanup phases on leaving a node, replaying a deferred back cleanup,
and broadcasting the final output to one finish subscriber. -/
inductive Ev (V : Type) where
  | inHooks (n : String)
  | build (n : String)
  | rebuild (n : String)
  | outHooks (n : String)
  | effectCleanups (n : String)
  | inCleanups (n : String)
  | replayBack (n : String) (c : Nat)
  | finishNotify (h : Nat) (o : V)
deriving DecidableEq

/-- Modelled from the spec: the workflow engine state: registered node
ids, the edge list in declaration order, the cleanup tokens each node's
transitionOut hooks produce, the noHistory flag per node, the finish
subscriber ids, the transient context, the history stack, and the event
log. -/
structure Workflow (V : Type) where
  nodes : List String
  edges : List (Edge V)
  outCleanupsOf : String → List Nat
  noHistoryOf : String → Bool
  subscribers : List Nat
  context : Option (Ctx V)
  history : List (HistEntry V)
  log : List (Ev V)

/-- Engine errors: a blocked transition, reversing a forward-only edge,
going back with an empty history, operating on a stopped workflow, and
starting at an unregistered node. -/
inductive EngineError where
  | transitionBlocked
  | unidirectionalBack
  | emptyHistory
  | notRunning
  | unregisteredNode
deriving Repr, DecidableEq

/-- Modelled from the spec (section 4.7): whether one edge allows the
transition for a given output, and with which next input.  default
accepts the output unchanged; conditional accepts exactly when the
guard is true; transform accepts exactly when the transform does not
throw, with the transformed value. -/
def validateTransition {V : Type} (e : Edge V) (o : V) : Option V :=
  match e.etype with
  | EdgeType.default => some o
  | EdgeType.conditional g => if g o then some o else none
  | EdgeType.transform t => t o

/-- Modelled from the spec (section 4.7): try the outgoing edges in
declaration order; the first edge that allows the transition wins; a
failing transform only skips to the next edge. -/
def selectEdge {V : Type} : List (Edge V) → V → Option (Edge V × V)
  | [], _ => none
  | e :: es, o =>
    match validateTransition e o with
    | some v => some (e, v)
    | none => selectEdge es o

/-- The outgoing edges of a node, in declaration order. -/
def outgoing {V : Type} (st : Workflow V) (n : String) : List (Edge V) :=
  st.edges.filter (fun e => e.src == n)

/-- The three cleanup phases run on leaving a node, in order:
transitionOut hooks, effect cleanups, transitionIn cleanups. -/
def exitEvents {V : Type} (n : String) : List (Ev V) :=
  [Ev.outHooks n, Ev.effectCleanups n, Ev.inCleanups n]

/-- The events of entering a node: run its transitionIn hooks, then on
backward navigation replay the deferred cleanups captured when it was
exited, then build the body to ready. -/
def enterEvents {V : Type} (n : String) (isBack : Bool) (backCleanups : List Nat) :
    List (Ev V) :=
  [Ev.inHooks n] ++
    (if isBack then backCleanups.map (fun c => Ev.replayBack n c) else []) ++
    [Ev.build n]

/-- Modelled from the spec: the privileged transitionInto primitive:
install the context at the target node with the given input and run the
entry events. -/
def transitionInto {V : Type} (st : Workflow V) (n : String) (input : Option V)
    (isBack : Bool) (backCleanups : List Nat) : Workflow V :=
  ⟨st.nodes, st.edges, st.outCleanupsOf, st.noHistoryOf, st.subscribers,
    some ⟨n, input, TransitionStatus.ready⟩, st.history,
    st.log ++ enterEvents n isBack backCleanups⟩

/-- Modelled from the spec: start(node) requires a registered node and
enters it with no input. -/
def start {V : Type} (st : Workflow V) (n : String) :
    Workflow V × Option EngineError :=
  if n ∈ st.nodes then (transitionInto st n none false [], none)
  else (st, some EngineError.unregisteredNode)

/-- Modelled from the spec (sections 4.3 and 4.7): next(output).  With
no outgoing edges the finish sequence runs: three-phase cleanup,
broadcast to every finish subscriber exactly once, destroy the context.
Otherwise the first accepting edge wins; the current node's entry is
pushed onto history (unless its definition is noHistory flagged)
carrying the transitionOut cleanups just collected, and the engine
enters the destination.  When no edge accepts, a TransitionBlockedError
is thrown before any mutation, leaving the state unchanged. -/
def next {V : Type} (o : V) (st : Workflow V) : Workflow V × Option EngineError :=
  match st.context with
  | none => (st, some EngineError.notRunning)
  | some ctx =>
    if (outgoing st ctx.currentNode).isEmpty then
      (⟨st.nodes, st.edges, st.outCleanupsOf, st.noHistoryOf, st.subscribers,
        none, st.history,
        st.log ++ exitEvents ctx.currentNode ++
          st.subscribers.map (fun h => Ev.finishNotify h o)⟩, none)
    else
      match selectEdge (outgoing st ctx.currentNode) o with
      | none => (st, some EngineError.transitionBlocked)
      | some (e, nextInput) =>
        (transitionInto
          ⟨st.nodes, st.edges, st.outCleanupsOf, st.noHistoryOf, st.subscribers,
            st.context,
            (if st.noHistoryOf ctx.currentNode then st.history
             else ⟨ctx.currentNode, ctx.currentInput, st.outCleanupsOf ctx.currentNode⟩ ::
               st.history),
            st.log ++ exitEvents ctx.currentNode⟩
          e.dst (some nextInput) false [], none)

/-- Modelled from the spec (section 4.6): goBack() requires a nonempty
history and that the edge connecting the previous entry to the current
node is not unidirectional in the forward direction just traversed;
otherwise it throws before any mutation.  On success it runs the
current node's cleanup sequence, pops the entry, re-enters that node
with its originally recorded input and replays the deferred cleanups. -/
def goBack {V : Type} (st : Workflow V) : Workflow V × Option EngineError :=
  match st.context with
  | none => (st, some EngineError.notRunning)
  | some ctx =>
    match st.history with
    | [] => (st, some EngineError.emptyHistory)
    | entry :: rest =>
      match st.edges.find? (fun e => e.src == entry.node && e.dst == ctx.currentNode) with
      | some e =>
        if e.unidirectional then (st, some EngineError.unidirectionalBack)
        else
          (transitionInto
            ⟨st.nodes, st.edges, st.outCleanupsOf, st.noHistoryOf, st.subscribers,
              st.context, rest, st.log ++ exitEvents ctx.currentNode⟩
            entry.node entry.input true entry.outCleanupOnBack, none)
      | none =>
        (transitionInto
          ⟨st.nodes, st.edges, st.outCleanupsOf, st.noHistoryOf, st.subscribers,
            st.context, rest, st.log ++ exitEvents ctx.currentNode⟩
          entry.node entry.input true entry.outCleanupOnBack, none)

/-- Modelled from the spec (section 4.4): a store update while a node
is current rebuilds that node's body and re-emits ready. -/
def rebuild {V : Type} (st : Workflow V) : Workflow V × Option EngineError :=
  match st.context with
  | none => (st, some EngineError.notRunning)
  | some ctx =>
    (⟨st.nodes, st.edges, st.outCleanupsOf, st.noHistoryOf, st.subscribers,
      st.context, st.history, st.log ++ [Ev.rebuild ctx.currentNode]⟩, none)

/-- isWorkflowRunning from the privileged internal surface. -/
def isWorkflowRunning {V : Type} (st : Workflow V) : Bool :=
  st.context.isSome

/-- getCurrentStep: throws when nothing is running. -/
def getCurrentStep {V : Type} (st : Workflow V) :
    Except EngineError (String × TransitionStatus) :=
  match st.context with
  | none => Except.error EngineError.notRunning
  | some ctx => Except.ok (ctx.currentNode, ctx.status)

end Engine

/-! ## Expression compilation cache (packages/expression/src/index.ts) -/

namespace Expression

/-- The keys of the cache map, in insertion/recency order (a JavaScript
Map iterates in insertion order; re-inserting moves a key to the end). -/
def keysOf (m : List (String × Nat)) : List String :=
  m.map Prod.fst

/-- Map.delete: remove the (unique) entry with the given key. -/
def mapDelete (k : String) (m : List (String × Nat)) : List (String × Nat) :=
  m.eraseP (fun p => p.1 == k)

/-- Map.set: update an existing key in place, otherwise append the new
entry at the end (most recent position). -/
def mapSet (k : String) (v : Nat) (m : List (String × Nat)) : List (String × Nat) :=
  if m.any (fun p => p.1 == k) then m.map (fun p => if p.1 == k then (k, v) else p)
  else m ++ [(k, v)]

/-- The cache bound MAX_CACHE_SIZE of the source. -/
def maxCacheSize : Nat := 1000

/-- The mutable module state of the expression compiler: the LRU cache
(compiled functions are identified by the allocation counter value at
their creation, since each successful compilation allocates a fresh
closure) and the allocation counter. -/
structure ExprState where
  cache : List (String × Nat)
  counter : Nat
deriving Repr, DecidableEq

/-- The initial module state: empty cache. -/
def initState : ExprState :=
  ⟨[], 0⟩

/-- Translation of cacheGet: on a hit the entry is deleted and
re-inserted, moving it to the most recent position. -/
def cacheGet (k : String) (st : ExprState) : Option Nat × ExprState :=
  match st.cache.find? (fun p => p.1 == k) with
  | none => (none, st)
  | some p => (some p.2, ⟨mapSet k p.2 (mapDelete k st.cache), st.counter⟩)

/-- Translation of the eviction step of cacheSet: when the cache is
full, the first key in iteration order (the least recently used entry)
is deleted before inserting. -/
def evictIfFull (m : List (String × Nat)) : List (String × Nat) :=
  if maxCacheSize ≤ m.length then
    match m with
    | [] => m
    | p :: _ => mapDelete p.1 m
  else m

/-- Translation of cacheSet: evict the oldest entry when full, then
insert. -/
def cacheSet (k : String) (v : Nat) (st : ExprState) : ExprState :=
  ⟨mapSet k v (evictIfFull st.cache), st.counter⟩

/-- Translation of the expression function, restricted to inputs whose
tokenization and parsing succeed (the lexer and parser live in separate
source files and are irrelevant to the caching behavior): on a cache
hit the cached compiled function is returned unchanged; on a miss a
fresh compiled closure is allocated (identified by the current counter
value) and stored through cacheSet. -/
def expression (k : String) (st : ExprState) : Nat × ExprState :=
  match cacheGet k st with
  | (some v, st1) => (v, st1)
  | (none, _) => (st.counter, cacheSet k st.counter ⟨st.cache, st.counter + 1⟩)

/-- Running a sequence of expression calls for their state effect. -/
def runExprs (ks : List String) (st : ExprState) : ExprState :=
  ks.foldl (fun s k => (expression k s).2) st

/-- A family of pairwise distinct expression strings, used for concrete
traces: the string of i letters a. -/
def kkey (i : Nat) : String :=
  String.mk (List.replicate i 'a')

/-- Well-formedness of the cache: keys are pairwise distinct, as they
are in a JavaScript Map. -/
def WF (st : ExprState) : Prop :=
  (keysOf st.cache).Nodup

end Expression

end MotifTs

/-! ## Helper lemmas about the embedded definitions -/

namespace MotifTs

namespace Hooks

/-- find? locates the unique entry with the given id when everything in
front of it has a different id. -/
theorem find_id_append {A B : List (Nat × Nat)} {id s : Nat}
    (hA : ∀ p ∈ A, p.1 ≠ id) :
    (A ++ (id, s) :: B).find? (fun p => p.1 == id) = some (id, s) := by
  induction A with
  | nil => simp [List.find?]
  | cons a A ih =>
    have ha : a.1 ≠ id := hA a (by simp)
    simp only [List.cons_append, List.find?]
    rw [show (a.1 == id) = false by simpa using ha]
    exact ih (fun p hp => hA p (by simp [hp]))

/-- eraseP removes exactly the unique entry with the given id. -/
theorem eraseP_id_append {A B : List (Nat × Nat)} {id s : Nat}
    (hA : ∀ p ∈ A, p.1 ≠ id) :
    (A ++ (id, s) :: B).eraseP (fun p => p.1 == id) = A ++ B := by
  induction A with
  | nil => simp [List.eraseP]
  | cons a A ih =>
    have ha : a.1 ≠ id := hA a (by simp)
    simp only [List.cons_append, List.eraseP_cons]
    rw [show (a.1 == id) = false by simpa using ha]
    simp only [cond_false]
    rw [ih (fun p hp => hA p (by simp [hp]))]

/-- One step never logs a given id when that id is absent from pending
and stored and the operation is not a dispatch of it; absence is also
preserved. -/
theorem step_count_stable (st : HookState) (op : HookOp) (id : Nat)
    (hp : ∀ p ∈ st.pending, p.1 ≠ id) (hs : ∀ p ∈ st.stored, p.1 ≠ id)
    (hop : op ≠ HookOp.dispatch id) :
    (∀ p ∈ (step st op).pending, p.1 ≠ id) ∧
    (∀ p ∈ (step st op).stored, p.1 ≠ id) ∧
    (step st op).log.count id = st.log.count id := by
  cases op with
  | enter => exact ⟨hp, hs, rfl⟩
  | exit =>
    refine ⟨hp, by simp [step], ?_⟩
    simp only [step, List.count_append]
    have : (st.stored.map Prod.fst).count id = 0 := by
      rw [List.count_eq_zero]
      intro hmem
      obtain ⟨p, hpmem, hfst⟩ := List.mem_map.mp hmem
      exact hs p hpmem hfst
    omega
  | dispatch j =>
    have hj : j ≠ id := fun h => hop (by rw [h])
    refine ⟨?_, hs, rfl⟩
    intro p hpmem
    rcases List.mem_append.mp hpmem with h | h
    · exact hp p h
    · simp at h
      subst h
      exact hj
  | reject j =>
    exact ⟨fun p hpmem => hp p (List.Sublist.mem hpmem (List.eraseP_sublist _)), hs, rfl⟩
  | resolve j =>
    simp only [step]
    split
    · exact ⟨hp, hs, rfl⟩
    case _ p hfind =>
      have hpmem : p ∈ st.pending := List.mem_of_find?_eq_some hfind
      have hpne : p.1 ≠ id := hp p hpmem
      have herase : ∀ q ∈ st.pending.eraseP (fun q => q.1 == j), q.1 ≠ id :=
        fun q hq => hp q (List.Sublist.mem hq (List.eraseP_sublist _))
      split
      · refine ⟨herase, ?_, rfl⟩
        intro q hq
        rcases List.mem_append.mp hq with h | h
        · exact hs q h
        · simp at h
          subst h
          exact hpne
      · refine ⟨herase, hs, ?_⟩
        simp only [List.count_append]
        have hz : List.count id [p.1] = 0 :=
          List.count_eq_zero.mpr (by simp [Ne.symm hpne])
        omega

/-- A run never logs a given id while that id is absent from pending
and stored and no operation dispatches it. -/
theorem run_count_stable (id : Nat) (ops : List HookOp) : ∀ (st : HookState),
    (∀ p ∈ st.pending, p.1 ≠ id) → (∀ p ∈ st.stored, p.1 ≠ id) →
    (∀ op ∈ ops, op ≠ HookOp.dispatch id) →
    (run st ops).log.count id = st.log.count id := by
  induction ops with
  | nil => intro st _ _ _; rfl
  | cons op ops ih =>
    intro st hp hs hops
    have hop : op ≠ HookOp.dispatch id := hops op (by simp)
    obtain ⟨hp', hs', hcount⟩ := step_count_stable st op id hp hs hop
    have := ih (step st op) hp' hs' (fun o ho => hops o (by simp [ho]))
    calc (run st (op :: ops)).log.count id
        = (run (step st op) ops).log.count id := rfl
      _ = (step st op).log.count id := this
      _ = st.log.count id := hcount

end Hooks

namespace Engine

/-- selectEdge returns the first accepting edge: everything before it
rejects the output, and it accepts. -/
theorem selectEdge_first {V : Type} (o : V) :
    ∀ (E1 : List (Edge V)) (e : Edge V) (E2 : List (Edge V)) (v : V),
    (∀ e1 ∈ E1, validateTransition e1 o = none) →
    validateTransition e o = some v →
    selectEdge (E1 ++ e :: E2) o = some (e, v) := by
  intro E1
  induction E1 with
  | nil =>
    intro e E2 v _ hacc
    simp only [List.nil_append, selectEdge, hacc]
  | cons e1 E1 ih =>
    intro e E2 v hrej hacc
    have h1 : validateTransition e1 o = none := hrej e1 (by simp)
    simp only [List.cons_append, selectEdge, h1]
    exact ih e E2 v (fun x hx => hrej x (by simp [hx])) hacc

/-- selectEdge fails when every edge rejects the output. -/
theorem selectEdge_none {V : Type} (o : V) :
    ∀ (E : List (Edge V)), (∀ e ∈ E, validateTransition e o = none) →
    selectEdge E o = none := by
  intro E
  induction E with
  | nil => intro _; rfl
  | cons e1 E ih =>
    intro hrej
    have h1 : validateTransition e1 o = none := hrej e1 (by simp)
    simp only [selectEdge, h1]
    exact ih (fun x hx => hrej x (by simp [hx]))

/-- When the first accepting outgoing edge is e with next input v,
next(o) runs the exit sequence, pushes the current node's history entry
(unless noHistory flagged) and enters the destination of e. -/
theorem next_accepts {V : Type} (o v : V) (st : Workflow V) (ctx : Ctx V)
    (e : Edge V) (E1 E2 : List (Edge V))
    (hctx : st.context = some ctx)
    (houtg : outgoing st ctx.currentNode = E1 ++ e :: E2)
    (hrej : ∀ e1 ∈ E1, validateTransition e1 o = none)
    (hacc : validateTransition e o = some v) :
    next o st =
      (transitionInto
        ⟨st.nodes, st.edges, st.outCleanupsOf, st.noHistoryOf, st.subscribers,
          st.context,
          (if st.noHistoryOf ctx.currentNode then st.history
           else ⟨ctx.currentNode, ctx.currentInput, st.outCleanupsOf ctx.currentNode⟩ ::
             st.history),
          st.log ++ exitEvents ctx.currentNode⟩
        e.dst (some v) false [], none) := by
  have hne : (outgoing st ctx.currentNode).isEmpty = false := by
    rw [houtg]
    cases E1 <;> rfl
  have hsel : selectEdge (outgoing st ctx.currentNode) o = some (e, v) := by
    rw [houtg]
    exact selectEdge_first o E1 e E2 v hrej hacc
  simp only [next, hctx, hne, hsel]
  rfl

end Engine

namespace Expression

/-- find? locates the unique entry with the given key when every key in
front of it differs. -/
theorem find_key_append {A B : List (String × Nat)} {k : String} {w : Nat}
    (hA : k ∉ keysOf A) :
    (A ++ (k, w) :: B).find? (fun p => p.1 == k) = some (k, w) := by
  induction A with
  | nil => simp [List.find?]
  | cons a A ih =>
    have ha : a.1 ≠ k := fun h => hA (List.mem_cons.mpr (Or.inl h.symm))
    simp only [List.cons_append, List.find?]
    rw [show (a.1 == k) = false by simpa using ha]
    exact ih (fun h => hA (List.mem_cons.mpr (Or.inr h)))

/-- Map.delete removes exactly the unique entry with the given key. -/
theorem mapDelete_key_append {A B : List (String × Nat)} {k : String} {w : Nat}
    (hA : k ∉ keysOf A) :
    mapDelete k (A ++ (k, w) :: B) = A ++ B := by
  unfold mapDelete
  induction A with
  | nil => simp [List.eraseP]
  | cons a A ih =>
    have ha : a.1 ≠ k := fun h => hA (List.mem_cons.mpr (Or.inl h.symm))
    simp only [List.cons_append, List.eraseP_cons]
    rw [show (a.1 == k) = false by simpa using ha]
    simp only [cond_false]
    rw [ih (fun h => hA (List.mem_cons.mpr (Or.inr h)))]

/-- Map.set on an absent key appends the entry at the end. -/
theorem mapSet_absent {m : List (String × Nat)} {k : String} (v : Nat)
    (hk : k ∉ keysOf m) :
    mapSet k v m = m ++ [(k, v)] := by
  unfold mapSet
  rw [if_neg]
  intro hany
  rw [← Bool.not_eq_false] at hany
  apply hany
  rw [List.any_eq_false]
  intro p hp
  simp only [beq_iff_eq]
  exact fun h => hk (List.mem_map.mpr ⟨p, hp, h⟩)

/-- find? misses on a cache that does not hold the key. -/
theorem find_key_absent {m : List (String × Nat)} {k : String}
    (hk : k ∉ keysOf m) :
    m.find? (fun p => p.1 == k) = none := by
  rw [List.find?_eq_none]
  intro p hp
  simp only [beq_iff_eq]
  exact fun h => hk (List.mem_map.mpr ⟨p, hp, h⟩)

/-- A well formed split cache has the key in neither side. -/
theorem wf_split {A B : List (String × Nat)} {k : String} {w : Nat}
    (hwf : (keysOf (A ++ (k, w) :: B)).Nodup) :
    k ∉ keysOf A ∧ k ∉ keysOf B ∧ (keysOf A ++ keysOf B).Nodup := by
  have h : keysOf (A ++ (k, w) :: B) = keysOf A ++ k :: keysOf B := by
    simp [keysOf]
  rw [h] at hwf
  have := List.nodup_middle.mp hwf
  rw [List.nodup_cons] at this
  refine ⟨fun hm => this.1 (List.mem_append.mpr (Or.inl hm)),
    fun hm => this.1 (List.mem_append.mpr (Or.inr hm)), this.2⟩

/-- A cache hit: the cached value is returned and the entry moves to
the most recent position; nothing is compiled. -/
theorem expression_hit {st : ExprState} {A B : List (String × Nat)} {k : String}
    {w : Nat} (hwf : WF st) (hsplit : st.cache = A ++ (k, w) :: B) :
    expression k st = (w, ⟨(A ++ B) ++ [(k, w)], st.counter⟩) := by
  have hwf' : (keysOf (A ++ (k, w) :: B)).Nodup := by
    rw [← hsplit]
    exact hwf
  obtain ⟨hA, hB, hAB⟩ := wf_split hwf'
  have hfind : st.cache.find? (fun p => p.1 == k) = some (k, w) := by
    rw [hsplit]
    exact find_key_append hA
  have hdel : mapDelete k st.cache = A ++ B := by
    rw [hsplit]
    exact mapDelete_key_append hA
  have hset : mapSet k w (A ++ B) = (A ++ B) ++ [(k, w)] := by
    apply mapSet_absent
    intro hm
    rcases List.mem_map.mp hm with ⟨p, hp, hpk⟩
    rcases List.mem_append.mp hp with h | h
    · exact hA (List.mem_map.mpr ⟨p, h, hpk⟩)
    · exact hB (List.mem_map.mpr ⟨p, h, hpk⟩)
  simp only [expression, cacheGet, hfind, hdel, hset]

/-- A cache miss with room left: a fresh closure is compiled, appended
at the most recent position, and the counter advances. -/
theorem expression_miss_small {st : ExprState} {k : String}
    (hk : k ∉ keysOf st.cache) (hlen : st.cache.length < maxCacheSize) :
    expression k st = (st.counter, ⟨st.cache ++ [(k, st.counter)], st.counter + 1⟩) := by
  have hfind := find_key_absent hk
  have hsmall : ¬ maxCacheSize ≤ st.cache.length := by omega
  simp only [expression, cacheGet, hfind, cacheSet, evictIfFull, if_neg hsmall]
  rw [mapSet_absent _ hk]

/-- A cache miss on a full cache: the first (least recently used) entry
is evicted, the fresh entry is appended, and the counter advances. -/
theorem expression_miss_full {st : ExprState} {k : String} {p : String × Nat}
    {t : List (String × Nat)} (hk : k ∉ keysOf st.cache)
    (hsplit : st.cache = p :: t) (hlen : maxCacheSize ≤ st.cache.length) :
    expression k st = (st.counter, ⟨t ++ [(k, st.counter)], st.counter + 1⟩) := by
  have hfind := find_key_absent hk
  have hkt : k ∉ keysOf t := by
    intro hm
    apply hk
    rw [hsplit]
    exact List.mem_cons.mpr (Or.inr hm)
  have hdel' : mapDelete p.1 (p :: t) = t := by
    unfold mapDelete
    rw [List.eraseP_cons_of_pos (by simp)]
  simp only [expression, cacheGet, hfind, cacheSet, evictIfFull]
  rw [if_pos hlen]
  rw [hsplit]
  show (st.counter,
      ExprState.mk (mapSet k st.counter (mapDelete p.1 (p :: t))) (st.counter + 1)) =
    (st.counter, ExprState.mk (t ++ [(k, st.counter)]) (st.counter + 1))
  rw [hdel', mapSet_absent _ hkt]

/-- The hit result is a permutation of the original cache. -/
theorem hit_perm {A B : List (String × Nat)} {k : String} {w : Nat} :
    (A ++ (k, w) :: B).Perm ((A ++ B) ++ [(k, w)]) :=
  List.perm_middle.trans (@List.perm_append_comm _ [(k, w)] (A ++ B))

/-- Well formedness and the size bound are preserved by the hit
result. -/
theorem wf_after_hit {st : ExprState} {A B : List (String × Nat)} {k : String}
    {w : Nat} (hwf : WF st) (hsplit : st.cache = A ++ (k, w) :: B) :
    WF ⟨(A ++ B) ++ [(k, w)], st.counter⟩ ∧
    ((A ++ B) ++ [(k, w)]).length = st.cache.length := by
  have hperm : st.cache.Perm ((A ++ B) ++ [(k, w)]) := by
    rw [hsplit]
    exact hit_perm
  have hkeys : (keysOf st.cache).Perm (keysOf ((A ++ B) ++ [(k, w)])) :=
    hperm.map Prod.fst
  exact ⟨hkeys.nodup_iff.mp hwf, hperm.length_eq.symm⟩

/-- Well formedness is preserved by appending a fresh key. -/
theorem wf_append_fresh {m : List (String × Nat)} {k : String} (v : Nat)
    (hwf : (keysOf m).Nodup) (hk : k ∉ keysOf m) :
    (keysOf (m ++ [(k, v)])).Nodup := by
  have hkeys : keysOf (m ++ [(k, v)]) = keysOf m ++ [k] := by
    simp [keysOf]
  rw [hkeys]
  have hperm : (keysOf m ++ [k]).Perm (k :: keysOf m) :=
    List.perm_append_comm
  rw [hperm.nodup_iff, List.nodup_cons]
  exact ⟨hk, hwf⟩

/-- Splitting a cache at a present key. -/
theorem split_of_mem_keys {m : List (String × Nat)} {k : String}
    (hm : k ∈ keysOf m) :
    ∃ A w B, m = A ++ (k, w) :: B := by
  simp only [keysOf, List.mem_map] at hm
  obtain ⟨p, hp, hpk⟩ := hm
  obtain ⟨A, B, hsplit⟩ := List.append_of_mem hp
  refine ⟨A, p.2, B, ?_⟩
  rw [hsplit, ← hpk]

/-- One expression call preserves well formedness and the cache size
bound. -/
theorem expression_preserves {st : ExprState} (k : String)
    (hwf : WF st) (hlen : st.cache.length ≤ maxCacheSize) :
    WF (expression k st).2 ∧ (expression k st).2.cache.length ≤ maxCacheSize := by
  by_cases hk : k ∈ keysOf st.cache
  · obtain ⟨A, w, B, hsplit⟩ := split_of_mem_keys hk
    obtain ⟨hwf', hlen'⟩ := wf_after_hit hwf hsplit
    rw [expression_hit hwf hsplit]
    exact ⟨hwf', by rw [show (ExprState.mk ((A ++ B) ++ [(k, w)]) st.counter).cache =
      (A ++ B) ++ [(k, w)] from rfl, hlen']; exact hlen⟩
  · by_cases hfull : maxCacheSize ≤ st.cache.length
    · cases hc : st.cache with
      | nil =>
        exfalso
        rw [hc] at hfull
        simp [maxCacheSize] at hfull
      | cons p t =>
        rw [expression_miss_full hk hc hfull]
        have hwft : (keysOf t).Nodup := by
          have := hwf
          unfold WF at this
          rw [hc] at this
          exact (List.nodup_cons.mp this).2
        have hkt : k ∉ keysOf t := by
          intro hm
          exact hk (by rw [hc]; exact List.mem_cons.mpr (Or.inr hm))
        refine ⟨wf_append_fresh _ hwft hkt, ?_⟩
        have : st.cache.length = t.length + 1 := by rw [hc]; rfl
        simp only [List.length_append, List.length_cons, List.length_nil]
        omega
    · rw [expression_miss_small hk (by omega)]
      refine ⟨wf_append_fresh _ hwf hk, ?_⟩
      simp only [List.length_append, List.length_cons, List.length_nil]
      omega

/-- Hitting the keys at the front of the cache, in order, moves those
entries behind the rest, preserving their values, and compiles
nothing. -/
theorem hit_all_front : ∀ (L R : List (String × Nat)) (st : ExprState),
    WF st → st.cache = L ++ R →
    runExprs (keysOf L) st = ⟨R ++ L, st.counter⟩ := by
  intro L
  induction L with
  | nil =>
    intro R st _ hsplit
    rw [List.nil_append] at hsplit
    show st = ⟨R ++ [], st.counter⟩
    rw [List.append_nil, ← hsplit]
  | cons l0 L ih =>
    intro R st hwf hsplit
    have hsplit2 : st.cache = [] ++ (l0.1, l0.2) :: (L ++ R) := by
      rw [hsplit]
      rfl
    obtain ⟨hwfX, _⟩ := wf_after_hit hwf hsplit2
    have hx := expression_hit hwf hsplit2
    have h2 : (expression l0.1 st).2 =
        ⟨([] ++ (L ++ R)) ++ [(l0.1, l0.2)], st.counter⟩ := by rw [hx]
    have hshape : ([] ++ (L ++ R)) ++ [(l0.1, l0.2)] = L ++ (R ++ [l0]) := by
      simp [List.append_assoc]
    show runExprs (keysOf L) (expression l0.1 st).2 = ⟨R ++ l0 :: L, st.counter⟩
    rw [h2, hshape]
    have hres := ih (R ++ [l0]) ⟨L ++ (R ++ [l0]), st.counter⟩
      (by show WF ⟨L ++ (R ++ [l0]), st.counter⟩; rw [← hshape]; exact hwfX) rfl
    rw [hres]
    rw [List.append_assoc]
    rfl

/-- Compiling a list of fresh pairwise distinct keys, with enough room
for all of them, appends one fresh entry per key in order and advances
the counter by the number of keys. -/
theorem fill_fresh : ∀ (ks : List String) (st : ExprState),
    WF st → ks.Nodup → (∀ k ∈ ks, k ∉ keysOf st.cache) →
    st.cache.length + ks.length ≤ maxCacheSize →
    ∃ tail, runExprs ks st = ⟨st.cache ++ tail, st.counter + ks.length⟩ ∧
      keysOf tail = ks ∧ WF (runExprs ks st) := by
  intro ks
  induction ks with
  | nil =>
    intro st hwf _ _ _
    refine ⟨[], ?_, rfl, hwf⟩
    show st = ⟨st.cache ++ [], st.counter + 0⟩
    rw [List.append_nil]
    rfl
  | cons k ks ih =>
    intro st hwf hnodup hfresh hlen
    have hk : k ∉ keysOf st.cache := hfresh k (by simp)
    have hsmall : st.cache.length < maxCacheSize := by
      simp only [List.length_cons] at hlen
      omega
    have hx := expression_miss_small hk hsmall
    have h2 : (expression k st).2 =
        ⟨st.cache ++ [(k, st.counter)], st.counter + 1⟩ := by rw [hx]
    have hwf2 : WF (expression k st).2 := by
      rw [h2]
      exact wf_append_fresh _ hwf hk
    have hfresh2 : ∀ k' ∈ ks, k' ∉ keysOf ((expression k st).2).cache := by
      intro k' hk' hmem
      rw [h2] at hmem
      have hmem' : k' ∈ keysOf st.cache ++ [k] := by
        have heq : keysOf (st.cache ++ [(k, st.counter)]) = keysOf st.cache ++ [k] := by
          simp [keysOf]
        rw [← heq]
        exact hmem
      rcases List.mem_append.mp hmem' with h | h
      · exact hfresh k' (List.mem_cons.mpr (Or.inr hk')) h
      · have hkk : k' = k := by simpa using h
        exact (List.nodup_cons.mp hnodup).1 (hkk ▸ hk')
    have hlen2 : ((expression k st).2).cache.length + ks.length ≤ maxCacheSize := by
      rw [h2]
      simp only [List.length_append, List.length_cons, List.length_nil]
      simp only [List.length_cons] at hlen
      omega
    obtain ⟨tail, hrun, hkeys, hwfF⟩ :=
      ih ((expression k st).2) hwf2 (List.nodup_cons.mp hnodup).2 hfresh2 hlen2
    refine ⟨(k, st.counter) :: tail, ?_, ?_, ?_⟩
    · show runExprs ks (expression k st).2 = _
      rw [hrun, h2]
      show ExprState.mk ((st.cache ++ [(k, st.counter)]) ++ tail) ((st.counter + 1) + ks.length) =
        ExprState.mk (st.cache ++ ((k, st.counter) :: tail)) (st.counter + (ks.length + 1))
      rw [List.append_assoc]
      have : (st.counter + 1) + ks.length = st.counter + (ks.length + 1) := by omega
      rw [this]
      rfl
    · show keysOf ((k, st.counter) :: tail) = k :: ks
      have : keysOf ((k, st.counter) :: tail) = k :: keysOf tail := rfl
      rw [this, hkeys]
    · exact hwfF

/-- The kkey family is injective: distinct indices give distinct
expression strings. -/
theorem kkey_inj : Function.Injective kkey := by
  intro x y h
  have hd : List.replicate x 'a' = List.replicate y 'a' := congrArg String.data h
  have := congrArg List.length hd
  simpa using this

/-- On any miss the returned compiled function is the freshly allocated
one, identified by the counter value. -/
theorem expression_miss_fst {st : ExprState} {k : String}
    (hk : k ∉ keysOf st.cache) :
    (expression k st).1 = st.counter := by
  simp only [expression, cacheGet, find_key_absent hk]

/-- The LRU persistence invariant: a cached entry (s, v) survives any
sequence of calls that only uses keys from a set K of fewer than
maxCacheSize keys not containing s, because the keys more recent than s
always stay inside K, so s can never become the evicted head of a full
cache.  The entry keeps its exact value. -/
theorem persists_under_bounded_use (K : Finset String) (s : String) (v : Nat) :
    ∀ (ks : List String) (st : ExprState) (A B : List (String × Nat)),
    WF st → st.cache.length ≤ maxCacheSize → st.cache = A ++ (s, v) :: B →
    (∀ b ∈ keysOf B, b ∈ K) → (∀ k ∈ ks, k ∈ K) → s ∉ K →
    K.card + 1 ≤ maxCacheSize →
    ∃ A' B', (runExprs ks st).cache = A' ++ (s, v) :: B' ∧
      WF (runExprs ks st) ∧ (runExprs ks st).cache.length ≤ maxCacheSize ∧
      (∀ b ∈ keysOf B', b ∈ K) := by
  intro ks
  induction ks with
  | nil =>
    intro st A B hwf hlen hsplit hB _ _ _
    exact ⟨A, B, hsplit, hwf, hlen, hB⟩
  | cons k ks ih =>
    intro st A B hwf hlen hsplit hB hks hs hK
    have hkK : k ∈ K := hks k (by simp)
    have hknes : k ≠ s := fun h => hs (h ▸ hkK)
    obtain ⟨hwf2, hlen2⟩ := expression_preserves k hwf hlen
    have hkeyseq : keysOf (A ++ (s, v) :: B) = keysOf A ++ s :: keysOf B := by
      simp [keysOf]
    show ∃ A' B', (runExprs ks (expression k st).2).cache = A' ++ (s, v) :: B' ∧
      WF (runExprs ks (expression k st).2) ∧
      (runExprs ks (expression k st).2).cache.length ≤ maxCacheSize ∧
      (∀ b ∈ keysOf B', b ∈ K)
    by_cases hk : k ∈ keysOf st.cache
    · have hdecomp : k ∈ keysOf A ∨ k ∈ keysOf B := by
        rw [hsplit, hkeyseq] at hk
        rcases List.mem_append.mp hk with h | h
        · exact Or.inl h
        · rcases List.mem_cons.mp h with h | h
          · exact absurd h hknes
          · exact Or.inr h
      rcases hdecomp with hmem | hmem
      · obtain ⟨A1, w, A2, hAsplit⟩ := split_of_mem_keys hmem
        have hsplit2 : st.cache = A1 ++ (k, w) :: (A2 ++ (s, v) :: B) := by
          rw [hsplit, hAsplit]
          simp [List.append_assoc]
        have h2 : (expression k st).2 =
            ⟨(A1 ++ (A2 ++ (s, v) :: B)) ++ [(k, w)], st.counter⟩ := by
          rw [expression_hit hwf hsplit2]
        have hshape : (A1 ++ (A2 ++ (s, v) :: B)) ++ [(k, w)] =
            (A1 ++ A2) ++ (s, v) :: (B ++ [(k, w)]) := by
          simp [List.append_assoc]
        rw [h2] at hwf2 hlen2
        rw [h2]
        apply ih ⟨(A1 ++ (A2 ++ (s, v) :: B)) ++ [(k, w)], st.counter⟩
          (A1 ++ A2) (B ++ [(k, w)]) hwf2 hlen2 hshape
        · intro b hb
          have hb' : b ∈ keysOf B ++ [k] := by
            have heq : keysOf (B ++ [(k, w)]) = keysOf B ++ [k] := by simp [keysOf]
            rw [← heq]
            exact hb
          rcases List.mem_append.mp hb' with h | h
          · exact hB b h
          · rw [show b = k by simpa using h]
            exact hkK
        · exact fun x hx => hks x (List.mem_cons.mpr (Or.inr hx))
        · exact hs
        · exact hK
      · obtain ⟨B1, w, B2, hBsplit⟩ := split_of_mem_keys hmem
        have hsplit2 : st.cache = (A ++ (s, v) :: B1) ++ (k, w) :: B2 := by
          rw [hsplit, hBsplit]
          simp [List.append_assoc]
        have h2 : (expression k st).2 =
            ⟨((A ++ (s, v) :: B1) ++ B2) ++ [(k, w)], st.counter⟩ := by
          rw [expression_hit hwf hsplit2]
        have hshape : ((A ++ (s, v) :: B1) ++ B2) ++ [(k, w)] =
            A ++ (s, v) :: ((B1 ++ B2) ++ [(k, w)]) := by
          simp [List.append_assoc]
        rw [h2] at hwf2 hlen2
        rw [h2]
        apply ih ⟨((A ++ (s, v) :: B1) ++ B2) ++ [(k, w)], st.counter⟩
          A ((B1 ++ B2) ++ [(k, w)]) hwf2 hlen2 hshape
        · intro b hb
          have hb' : b ∈ (keysOf B1 ++ keysOf B2) ++ [k] := by
            have heq : keysOf ((B1 ++ B2) ++ [(k, w)]) =
                (keysOf B1 ++ keysOf B2) ++ [k] := by simp [keysOf]
            rw [← heq]
            exact hb
          have hBmem : ∀ x, x ∈ keysOf B1 ∨ x ∈ keysOf B2 → x ∈ K := by
            intro x hx
            apply hB
            rw [hBsplit]
            have heq : keysOf (B1 ++ (k, w) :: B2) = keysOf B1 ++ k :: keysOf B2 := by
              simp [keysOf]
            rw [heq]
            rcases hx with h | h
            · exact List.mem_append.mpr (Or.inl h)
            · exact List.mem_append.mpr (Or.inr (List.mem_cons.mpr (Or.inr h)))
          rcases List.mem_append.mp hb' with h | h
          · exact hBmem b (List.mem_append.mp h)
          · rw [show b = k by simpa using h]
            exact hkK
        · exact fun x hx => hks x (List.mem_cons.mpr (Or.inr hx))
        · exact hs
        · exact hK
    · by_cases hfull : maxCacheSize ≤ st.cache.length
      · cases hA : A with
        | nil =>
          exfalso
          rw [hA, List.nil_append] at hsplit
          have hlenB : st.cache.length = B.length + 1 := by
            rw [hsplit]
            simp
          have hnodupB : (keysOf B).Nodup := by
            have := hwf
            unfold WF at this
            rw [hsplit] at this
            have heq : keysOf ((s, v) :: B) = s :: keysOf B := rfl
            rw [heq] at this
            exact (List.nodup_cons.mp this).2
          have hkB : k ∉ keysOf B := by
            intro hm
            apply hk
            rw [hsplit]
            exact List.mem_cons.mpr (Or.inr hm)
          have hsubs : (keysOf B).toFinset ⊆ K := by
            intro b hb
            exact hB b (List.mem_toFinset.mp hb)
          have hins : insert k (keysOf B).toFinset ⊆ K :=
            Finset.insert_subset_iff.mpr ⟨hkK, hsubs⟩
          have hkne : k ∉ (keysOf B).toFinset := fun h => hkB (List.mem_toFinset.mp h)
          have hcard1 : (insert k (keysOf B).toFinset).card =
              (keysOf B).toFinset.card + 1 := Finset.card_insert_of_not_mem hkne
          have hcard2 : (keysOf B).toFinset.card = (keysOf B).length :=
            List.toFinset_card_of_nodup hnodupB
          have hcard3 : (insert k (keysOf B).toFinset).card ≤ K.card :=
            Finset.card_le_card hins
          have hlenkeys : (keysOf B).length = B.length := by
            simp [keysOf]
          omega
        | cons a0 A' =>
          have hsplit2 : st.cache = a0 :: (A' ++ (s, v) :: B) := by
            rw [hsplit, hA]
            rfl
          have h2 : (expression k st).2 =
              ⟨(A' ++ (s, v) :: B) ++ [(k, st.counter)], st.counter + 1⟩ := by
            rw [expression_miss_full hk hsplit2 hfull]
          have hshape : (A' ++ (s, v) :: B) ++ [(k, st.counter)] =
              A' ++ (s, v) :: (B ++ [(k, st.counter)]) := by
            simp [List.append_assoc]
          rw [h2] at hwf2 hlen2
          rw [h2]
          apply ih ⟨(A' ++ (s, v) :: B) ++ [(k, st.counter)], st.counter + 1⟩
            A' (B ++ [(k, st.counter)]) hwf2 hlen2 hshape
          · intro b hb
            have hb' : b ∈ keysOf B ++ [k] := by
              have heq : keysOf (B ++ [(k, st.counter)]) = keysOf B ++ [k] := by
                simp [keysOf]
              rw [← heq]
              exact hb
            rcases List.mem_append.mp hb' with h | h
            · exact hB b h
            · rw [show b = k by simpa using h]
              exact hkK
          · exact fun x hx => hks x (List.mem_cons.mpr (Or.inr hx))
          · exact hs
          · exact hK
      · have h2 : (expression k st).2 =
            ⟨st.cache ++ [(k, st.counter)], st.counter + 1⟩ := by
          rw [expression_miss_small hk (by omega)]
        have hshape : st.cache ++ [(k, st.counter)] =
            A ++ (s, v) :: (B ++ [(k, st.counter)]) := by
          rw [hsplit]
          simp [List.append_assoc]
        rw [h2] at hwf2 hlen2
        rw [h2]
        apply ih ⟨st.cache ++ [(k, st.counter)], st.counter + 1⟩
          A (B ++ [(k, st.counter)]) hwf2 hlen2 hshape
        · intro b hb
          have hb' : b ∈ keysOf B ++ [k] := by
            have heq : keysOf (B ++ [(k, st.counter)]) = keysOf B ++ [k] := by
              simp [keysOf]
            rw [← heq]
            exact hb
          rcases List.mem_append.mp hb' with h | h
          · exact hB b h
          · rw [show b = k by simpa using h]
            exact hkK
        · exact fun x hx => hks x (List.mem_cons.mpr (Or.inr hx))
        · exact hs
        · exact hK

end Expression

end MotifTs

namespace MotifTsClaims

open MotifTs

/-- C8: when the Redux DevTools extension is unavailable (the window is
undefined or its extension slot is empty), devtoolsMiddleware returns
the original workflow unchanged for every workflow and options value,
adds no subscription, connects to nothing and initializes nothing. -/
theorem c8_devtools_noop_without_extension {Ext Wf : Type}
    (window : Option (Devtools.WindowObj Ext)) (workflow : Wf)
    (options : Devtools.DevtoolsOptions)
    (h : window = none ∨ ∃ w, window = some w ∧ w.reduxDevtoolsExtension = none) :
    Devtools.devtoolsMiddleware window workflow options =
      (workflow, ⟨false, false, 0⟩) := by
  rcases h with h | ⟨w, hw, hext⟩
  · subst h
    rfl
  · subst hw
    simp [Devtools.devtoolsMiddleware, Devtools.extensionOf, hext]

/-- Witness for C8 at a concrete input: a window with an empty extension
slot, workflow value 42, default options. -/
theorem c8_devtools_noop_without_extension_witness :
    Devtools.devtoolsMiddleware (some (⟨none⟩ : Devtools.WindowObj Unit)) (42 : Nat)
      ⟨none⟩ = ((42 : Nat), ⟨false, false, 0⟩) :=
  c8_devtools_noop_without_extension (some ⟨none⟩) 42 ⟨none⟩
    (Or.inr ⟨⟨none⟩, rfl, rfl⟩)

/-- C10: AIExecutor.execute is total at its interface: it always
produces a ToolResult and never throws.  Concretely: (1) when
getCurrentStep throws, the error message is returned with success
false; (2) when the parsed action name does not name a function valued
property of the current step public API, it returns success false with
the message listing the function valued actions; (3) when the invoked
action throws, the error message is returned with success false; (4)
when the action returns a value, execute returns it with success true. -/
theorem c10_executor_total {V : Type}
    (api : List (String × AIExec.ApiValue V)) (toolName e : String) (v : V) :
    (AIExec.execute (V := V) (Except.error e) toolName = ⟨false, none, some e⟩) ∧
    (AIExec.isFunctionAt api (AIExec.parseToolName toolName) = false →
      AIExec.execute (Except.ok api) toolName =
        ⟨false, none,
          some ("Unknown action: " ++ AIExec.parseToolName toolName ++
            ". Available actions: " ++
            String.intercalate ", " (AIExec.functionKeys api))⟩) ∧
    (AIExec.lookupApi api (AIExec.parseToolName toolName) =
        some (AIExec.ApiValue.action (Except.error e)) →
      AIExec.execute (Except.ok api) toolName = ⟨false, none, some e⟩) ∧
    (AIExec.lookupApi api (AIExec.parseToolName toolName) =
        some (AIExec.ApiValue.action (Except.ok v)) →
      AIExec.execute (Except.ok api) toolName = ⟨true, some v, none⟩) := by
  refine ⟨rfl, ?_, ?_, ?_⟩
  · intro hnone
    simp only [AIExec.execute]
    unfold AIExec.isFunctionAt at hnone
    cases hfind : AIExec.lookupApi api (AIExec.parseToolName toolName) with
    | none => rfl
    | some a =>
      rw [hfind] at hnone
      cases a with
      | action r => exact absurd hnone (by simp)
      | plainValue => rfl
  · intro hfind
    simp only [AIExec.execute]
    rw [hfind]
  · intro hfind
    simp only [AIExec.execute]
    rw [hfind]

/-- C2: spec-modelled.  Edge selection on next(o): a default edge
accepts with next input o; a conditional edge accepts exactly when its
guard accepts o; a transform edge accepts exactly when its transform
does not throw (a throw skips to the next edge without aborting), with
the transformed next input; the edges are tried in declaration order
and the first accepting edge determines the destination; when every
edge is exhausted without acceptance a TransitionBlockedError is thrown
and the workflow state is left unchanged. -/
theorem c2_edge_selection {V : Type} (st : Engine.Workflow V) (ctx : Engine.Ctx V)
    (o : V) (a b : String) (u : Bool) (g : V → Bool) (t : V → Option V)
    (hctx : st.context = some ctx) :
    (Engine.validateTransition ⟨a, b, u, Engine.EdgeType.default⟩ o = some o) ∧
    (Engine.validateTransition ⟨a, b, u, Engine.EdgeType.conditional g⟩ o =
      (if g o then some o else none)) ∧
    (Engine.validateTransition ⟨a, b, u, Engine.EdgeType.transform t⟩ o = t o) ∧
    (∀ (E1 : List (Engine.Edge V)) (e : Engine.Edge V) (E2 : List (Engine.Edge V)) (v : V),
      Engine.outgoing st ctx.currentNode = E1 ++ e :: E2 →
      (∀ e1 ∈ E1, Engine.validateTransition e1 o = none) →
      Engine.validateTransition e o = some v →
      (Engine.next o st).2 = none ∧
      (Engine.next o st).1.context =
        some ⟨e.dst, some v, Engine.TransitionStatus.ready⟩) ∧
    (Engine.outgoing st ctx.currentNode ≠ [] →
      (∀ e ∈ Engine.outgoing st ctx.currentNode, Engine.validateTransition e o = none) →
      Engine.next o st = (st, some Engine.EngineError.transitionBlocked)) := by
  refine ⟨rfl, rfl, rfl, ?_, ?_⟩
  · intro E1 e E2 v houtg hrej hacc
    rw [Engine.next_accepts o v st ctx e E1 E2 hctx houtg hrej hacc]
    exact ⟨rfl, rfl⟩
  · intro hne hrejall
    have hempty : (Engine.outgoing st ctx.currentNode).isEmpty = false := by
      cases houtg : Engine.outgoing st ctx.currentNode with
      | nil => exact absurd houtg hne
      | cons x xs => rfl
    have hsel := Engine.selectEdge_none o _ hrejall
    simp [Engine.next, hctx, hempty, hsel]

/-- Witness for C2 at a concrete input: stepA connects to stepB by a
conditional edge guarded on even values, declared before a default edge
to stepC; submitting 3 (odd) skips stepB and lands on stepC; a variant
workflow with only the conditional edge gets blocked with its state
unchanged. -/
theorem c2_edge_selection_witness :
    ((Engine.next 3
      (⟨["input:input", "b:b", "c:c"],
        [⟨"input:input", "b:b", false, Engine.EdgeType.conditional (fun v => v % 2 == 0)⟩,
          ⟨"input:input", "c:c", false, Engine.EdgeType.default⟩],
        fun _ => [], fun _ => false, [],
        some ⟨"input:input", none, Engine.TransitionStatus.ready⟩, [], []⟩ :
        Engine.Workflow Nat)).1.context =
      some ⟨"c:c", some 3, Engine.TransitionStatus.ready⟩) ∧
    (Engine.next 3
      (⟨["input:input", "b:b"],
        [⟨"input:input", "b:b", false, Engine.EdgeType.conditional (fun v => v % 2 == 0)⟩],
        fun _ => [], fun _ => false, [],
        some ⟨"input:input", none, Engine.TransitionStatus.ready⟩, [], []⟩ :
        Engine.Workflow Nat) =
      (⟨["input:input", "b:b"],
        [⟨"input:input", "b:b", false, Engine.EdgeType.conditional (fun v => v % 2 == 0)⟩],
        fun _ => [], fun _ => false, [],
        some ⟨"input:input", none, Engine.TransitionStatus.ready⟩, [], []⟩,
        some Engine.EngineError.transitionBlocked)) := by
  constructor
  · have h := c2_edge_selection
      (⟨["input:input", "b:b", "c:c"],
        [⟨"input:input", "b:b", false, Engine.EdgeType.conditional (fun v => v % 2 == 0)⟩,
          ⟨"input:input", "c:c", false, Engine.EdgeType.default⟩],
        fun _ => [], fun _ => false, [],
        some ⟨"input:input", none, Engine.TransitionStatus.ready⟩, [], []⟩ :
        Engine.Workflow Nat)
      ⟨"input:input", none, Engine.TransitionStatus.ready⟩ 3 "x" "y" false
      (fun v => v % 2 == 0) (fun v => some v) rfl
    exact (h.2.2.2.1
      [⟨"input:input", "b:b", false, Engine.EdgeType.conditional (fun v => v % 2 == 0)⟩]
      ⟨"input:input", "c:c", false, Engine.EdgeType.default⟩ [] 3 rfl
      (by intro e1 he1
          simp at he1
          rw [he1]
          rfl)
      rfl).2
  · have h := c2_edge_selection
      (⟨["input:input", "b:b"],
        [⟨"input:input", "b:b", false, Engine.EdgeType.conditional (fun v => v % 2 == 0)⟩],
        fun _ => [], fun _ => false, [],
        some ⟨"input:input", none, Engine.TransitionStatus.ready⟩, [], []⟩ :
        Engine.Workflow Nat)
      ⟨"input:input", none, Engine.TransitionStatus.ready⟩ 3 "x" "y" false
      (fun v => v % 2 == 0) (fun v => some v) rfl
    exact h.2.2.2.2 (by intro hcontra; cases hcontra)
      (by intro e1 he1
          simp [Engine.outgoing] at he1
          rw [he1]
          rfl)

/-- C1: spec-modelled.  When the current node has no outgoing edges,
next(output) finishes the run: the three-phase cleanup runs, the output
is broadcast to every finish subscriber exactly once, the context is
destroyed, isWorkflowRunning() turns false and getCurrentStep() throws. -/
theorem c1_finish_on_terminal {V : Type} [DecidableEq V]
    (st : Engine.Workflow V) (ctx : Engine.Ctx V) (o : V)
    (hctx : st.context = some ctx)
    (hterm : Engine.outgoing st ctx.currentNode = []) :
    (Engine.next o st).2 = none ∧
    (Engine.next o st).1.context = none ∧
    Engine.isWorkflowRunning (Engine.next o st).1 = false ∧
    Engine.getCurrentStep (Engine.next o st).1 =
      Except.error Engine.EngineError.notRunning ∧
    (Engine.next o st).1.log =
      st.log ++ Engine.exitEvents ctx.currentNode ++
        st.subscribers.map (fun h => Engine.Ev.finishNotify h o) ∧
    (st.subscribers.Nodup → ∀ h ∈ st.subscribers,
      ((Engine.next o st).1.log.drop st.log.length).count (Engine.Ev.finishNotify h o) = 1) := by
  have hempty : (Engine.outgoing st ctx.currentNode).isEmpty = true := by
    rw [hterm]
    rfl
  have hnext : Engine.next o st =
      (⟨st.nodes, st.edges, st.outCleanupsOf, st.noHistoryOf, st.subscribers, none,
        st.history,
        st.log ++ Engine.exitEvents ctx.currentNode ++
          st.subscribers.map (fun h => Engine.Ev.finishNotify h o)⟩, none) := by
    simp [Engine.next, hctx, hempty]
  refine ⟨by rw [hnext], by rw [hnext], by rw [hnext]; rfl, by rw [hnext]; rfl,
    by rw [hnext], ?_⟩
  intro hnodup h hmem
  rw [hnext]
  show ((st.log ++ Engine.exitEvents ctx.currentNode ++
    st.subscribers.map (fun h => Engine.Ev.finishNotify h o)).drop st.log.length).count
      (Engine.Ev.finishNotify h o) = 1
  rw [List.append_assoc, List.drop_left, List.count_append]
  have h0 : (Engine.exitEvents (V := V) ctx.currentNode).count
      (Engine.Ev.finishNotify h o) = 0 :=
    List.count_eq_zero.mpr (by simp [Engine.exitEvents])
  have hinj : Function.Injective (fun h' : Nat => Engine.Ev.finishNotify (V := V) h' o) := by
    intro x y hxy
    cases hxy
    rfl
  have h1 : (st.subscribers.map (fun h' => Engine.Ev.finishNotify (V := V) h' o)).count
      (Engine.Ev.finishNotify h o) = 1 := by
    rw [List.count_map_of_injective st.subscribers _ hinj h]
    exact List.count_eq_one_of_mem hnodup hmem
  rw [h0, h1]

/-- Witness for C1 at a concrete input: a single registered node with
no outgoing edges and two finish subscribers; next 10 finishes the run,
notifies both subscribers once with 10 and leaves a stopped workflow. -/
theorem c1_finish_on_terminal_witness :
    ((Engine.next 10
      (⟨["stepA:stepA"], [], fun _ => [], fun _ => false, [5, 9],
        some ⟨"stepA:stepA", none, Engine.TransitionStatus.ready⟩, [], []⟩ :
        Engine.Workflow Nat)).1.context = none) ∧
    (Engine.isWorkflowRunning (Engine.next 10
      (⟨["stepA:stepA"], [], fun _ => [], fun _ => false, [5, 9],
        some ⟨"stepA:stepA", none, Engine.TransitionStatus.ready⟩, [], []⟩ :
        Engine.Workflow Nat)).1 = false) ∧
    ((Engine.next 10
      (⟨["stepA:stepA"], [], fun _ => [], fun _ => false, [5, 9],
        some ⟨"stepA:stepA", none, Engine.TransitionStatus.ready⟩, [], []⟩ :
        Engine.Workflow Nat)).1.log =
      [Engine.Ev.outHooks "stepA:stepA", Engine.Ev.effectCleanups "stepA:stepA",
        Engine.Ev.inCleanups "stepA:stepA", Engine.Ev.finishNotify 5 10,
        Engine.Ev.finishNotify 9 10]) ∧
    (((Engine.next 10
      (⟨["stepA:stepA"], [], fun _ => [], fun _ => false, [5, 9],
        some ⟨"stepA:stepA", none, Engine.TransitionStatus.ready⟩, [], []⟩ :
        Engine.Workflow Nat)).1.log.drop 0).count (Engine.Ev.finishNotify 5 10) = 1) := by
  have h := c1_finish_on_terminal
    (⟨["stepA:stepA"], [], fun _ => [], fun _ => false, [5, 9],
      some ⟨"stepA:stepA", none, Engine.TransitionStatus.ready⟩, [], []⟩ :
      Engine.Workflow Nat)
    ⟨"stepA:stepA", none, Engine.TransitionStatus.ready⟩ 10 rfl rfl
  refine ⟨h.2.1, h.2.2.1, ?_, ?_⟩
  · rw [h.2.2.2.2.1]
    rfl
  · exact h.2.2.2.2.2 (by decide) 5 (by decide)

/-- C3: spec-modelled.  After transitioning from A to B over the first
accepting edge, the history gained A's entry with its original input
and its captured exit cleanups; when that edge is not unidirectional,
goBack() re-enters A with A's originally recorded input, pops the
entry, and the entry events replay each captured transitionOut cleanup
exactly once (as often as it was captured); when the edge is
unidirectional, goBack() throws UnidirectionalBackError and changes
nothing. -/
theorem c3_go_back {V : Type} [DecidableEq V] (stA : Engine.Workflow V)
    (a : String) (ia : Option V) (o v : V) (e : Engine.Edge V)
    (E1 E2 : List (Engine.Edge V))
    (hctx : stA.context = some ⟨a, ia, Engine.TransitionStatus.ready⟩)
    (houtg : Engine.outgoing stA a = E1 ++ e :: E2)
    (hrej : ∀ e1 ∈ E1, Engine.validateTransition e1 o = none)
    (hacc : Engine.validateTransition e o = some v)
    (hnh : stA.noHistoryOf a = false)
    (hfind : stA.edges.find? (fun ed => ed.src == a && ed.dst == e.dst) = some e) :
    ((Engine.next o stA).1.history =
      ⟨a, ia, stA.outCleanupsOf a⟩ :: stA.history) ∧
    (e.unidirectional = true →
      Engine.goBack (Engine.next o stA).1 =
        ((Engine.next o stA).1, some Engine.EngineError.unidirectionalBack)) ∧
    (e.unidirectional = false →
      (Engine.goBack (Engine.next o stA).1).2 = none ∧
      (Engine.goBack (Engine.next o stA).1).1.context =
        some ⟨a, ia, Engine.TransitionStatus.ready⟩ ∧
      (Engine.goBack (Engine.next o stA).1).1.history = stA.history ∧
      (Engine.goBack (Engine.next o stA).1).1.log =
        (Engine.next o stA).1.log ++ Engine.exitEvents e.dst ++
          Engine.enterEvents a true (stA.outCleanupsOf a)) ∧
    (∀ c : Nat,
      (Engine.enterEvents (V := V) a true (stA.outCleanupsOf a)).count
        (Engine.Ev.replayBack a c) = (stA.outCleanupsOf a).count c) := by
  have hB : (Engine.next o stA).1 =
      ⟨stA.nodes, stA.edges, stA.outCleanupsOf, stA.noHistoryOf, stA.subscribers,
        some ⟨e.dst, some v, Engine.TransitionStatus.ready⟩,
        ⟨a, ia, stA.outCleanupsOf a⟩ :: stA.history,
        stA.log ++ Engine.exitEvents a ++ Engine.enterEvents e.dst false []⟩ := by
    rw [Engine.next_accepts o v stA ⟨a, ia, Engine.TransitionStatus.ready⟩ e E1 E2
      hctx houtg hrej hacc]
    simp [Engine.transitionInto, hnh]
  refine ⟨by rw [hB], ?_, ?_, ?_⟩
  · intro huni
    rw [hB]
    simp only [Engine.goBack, hfind]
    rw [if_pos huni]
  · intro huni
    have hgb : Engine.goBack (Engine.next o stA).1 =
        (Engine.transitionInto
          ⟨stA.nodes, stA.edges, stA.outCleanupsOf, stA.noHistoryOf, stA.subscribers,
            some ⟨e.dst, some v, Engine.TransitionStatus.ready⟩, stA.history,
            (stA.log ++ Engine.exitEvents a ++ Engine.enterEvents e.dst false []) ++
              Engine.exitEvents e.dst⟩
          a ia true (stA.outCleanupsOf a), none) := by
      rw [hB]
      simp only [Engine.goBack, hfind]
      rw [if_neg (by simp [huni])]
    refine ⟨by rw [hgb], by rw [hgb]; rfl, by rw [hgb]; rfl, ?_⟩
    rw [hgb, hB]
    rfl
  · intro c
    have hinj : Function.Injective (fun c' : Nat => Engine.Ev.replayBack (V := V) a c') := by
      intro x y hxy
      cases hxy
      rfl
    simp only [Engine.enterEvents, if_pos]
    rw [List.count_append, List.count_append]
    rw [List.count_map_of_injective (stA.outCleanupsOf a) _ hinj c]
    have hz1 : List.count (Engine.Ev.replayBack (V := V) a c) [Engine.Ev.inHooks a] = 0 :=
      List.count_eq_zero.mpr (by simp)
    have hz2 : List.count (Engine.Ev.replayBack (V := V) a c) [Engine.Ev.build a] = 0 :=
      List.count_eq_zero.mpr (by simp)
    rw [hz1, hz2]
    omega

/-- Witness for C3 at concrete inputs: a default edge from a:a to b:b
with captured cleanups [3, 4]; after submitting 5 and going back the
workflow is again at a:a with its original input 1 and empty history,
and cleanup token 3 is replayed exactly once; on a variant whose edge
is unidirectional, goBack throws and leaves the transitioned state
unchanged. -/
theorem c3_go_back_witness :
    ((Engine.goBack (Engine.next 5
      (⟨["a:a", "b:b"], [⟨"a:a", "b:b", false, Engine.EdgeType.default⟩],
        fun n => if n == "a:a" then [3, 4] else [], fun _ => false, [],
        some ⟨"a:a", some 1, Engine.TransitionStatus.ready⟩, [], []⟩ :
        Engine.Workflow Nat)).1).1.context =
      some ⟨"a:a", some 1, Engine.TransitionStatus.ready⟩) ∧
    ((Engine.goBack (Engine.next 5
      (⟨["a:a", "b:b"], [⟨"a:a", "b:b", false, Engine.EdgeType.default⟩],
        fun n => if n == "a:a" then [3, 4] else [], fun _ => false, [],
        some ⟨"a:a", some 1, Engine.TransitionStatus.ready⟩, [], []⟩ :
        Engine.Workflow Nat)).1).1.history = []) ∧
    ((Engine.enterEvents (V := Nat) "a:a" true [3, 4]).count
      (Engine.Ev.replayBack "a:a" 3) = 1) ∧
    (Engine.goBack (Engine.next 5
      (⟨["a:a", "b:b"], [⟨"a:a", "b:b", true, Engine.EdgeType.default⟩],
        fun n => if n == "a:a" then [3, 4] else [], fun _ => false, [],
        some ⟨"a:a", some 1, Engine.TransitionStatus.ready⟩, [], []⟩ :
        Engine.Workflow Nat)).1 =
      ((Engine.next 5
        (⟨["a:a", "b:b"], [⟨"a:a", "b:b", true, Engine.EdgeType.default⟩],
          fun n => if n == "a:a" then [3, 4] else [], fun _ => false, [],
          some ⟨"a:a", some 1, Engine.TransitionStatus.ready⟩, [], []⟩ :
          Engine.Workflow Nat)).1, some Engine.EngineError.unidirectionalBack)) := by
  have hbi := c3_go_back
    (⟨["a:a", "b:b"], [⟨"a:a", "b:b", false, Engine.EdgeType.default⟩],
      fun n => if n == "a:a" then [3, 4] else [], fun _ => false, [],
      some ⟨"a:a", some 1, Engine.TransitionStatus.ready⟩, [], []⟩ :
      Engine.Workflow Nat)
    "a:a" (some 1) 5 5 ⟨"a:a", "b:b", false, Engine.EdgeType.default⟩ [] []
    rfl rfl (by intro e1 he1; simp at he1) rfl rfl rfl
  have huni := c3_go_back
    (⟨["a:a", "b:b"], [⟨"a:a", "b:b", true, Engine.EdgeType.default⟩],
      fun n => if n == "a:a" then [3, 4] else [], fun _ => false, [],
      some ⟨"a:a", some 1, Engine.TransitionStatus.ready⟩, [], []⟩ :
      Engine.Workflow Nat)
    "a:a" (some 1) 5 5 ⟨"a:a", "b:b", true, Engine.EdgeType.default⟩ [] []
    rfl rfl (by intro e1 he1; simp at he1) rfl rfl rfl
  refine ⟨((hbi.2.2.1) rfl).2.1, ((hbi.2.2.1) rfl).2.2.1, ?_, huni.2.1 rfl⟩
  have := hbi.2.2.2 3
  simpa using this

/-- C6: spec-modelled.  For a single node instance the hook order is
invariant: every way of entering a node appends transitionIn hooks
first and then the build to ready; a store update while the node is
current appends only a rebuild; and every way of leaving a node appends
the cleanup phases in the order transitionOut hooks, effect cleanups,
transitionIn cleanups, immediately followed (for a transition) by the
entry events of the next node — no operation interleaves them in any
other order. -/
theorem c6_lifecycle_order {V : Type} (st : Engine.Workflow V) (ctx : Engine.Ctx V)
    (n : String) (o v : V) (e : Engine.Edge V) (E1 E2 : List (Engine.Edge V))
    (entry : Engine.HistEntry V) (rest : List (Engine.HistEntry V))
    (eb : Engine.Edge V) :
    (n ∈ st.nodes →
      (Engine.start st n).1.log =
        st.log ++ [Engine.Ev.inHooks n, Engine.Ev.build n]) ∧
    (st.context = some ctx →
      (Engine.rebuild st).1.log = st.log ++ [Engine.Ev.rebuild ctx.currentNode]) ∧
    (st.context = some ctx →
      Engine.outgoing st ctx.currentNode = E1 ++ e :: E2 →
      (∀ e1 ∈ E1, Engine.validateTransition e1 o = none) →
      Engine.validateTransition e o = some v →
      (Engine.next o st).1.log =
        st.log ++ [Engine.Ev.outHooks ctx.currentNode,
          Engine.Ev.effectCleanups ctx.currentNode,
          Engine.Ev.inCleanups ctx.currentNode,
          Engine.Ev.inHooks e.dst, Engine.Ev.build e.dst]) ∧
    (st.context = some ctx →
      Engine.outgoing st ctx.currentNode = [] →
      (Engine.next o st).1.log =
        st.log ++ [Engine.Ev.outHooks ctx.currentNode,
          Engine.Ev.effectCleanups ctx.currentNode,
          Engine.Ev.inCleanups ctx.currentNode] ++
          st.subscribers.map (fun h => Engine.Ev.finishNotify h o)) ∧
    (st.context = some ctx →
      st.history = entry :: rest →
      st.edges.find? (fun ed => ed.src == entry.node && ed.dst == ctx.currentNode) =
        some eb →
      eb.unidirectional = false →
      (Engine.goBack st).1.log =
        st.log ++ [Engine.Ev.outHooks ctx.currentNode,
          Engine.Ev.effectCleanups ctx.currentNode,
          Engine.Ev.inCleanups ctx.currentNode,
          Engine.Ev.inHooks entry.node] ++
          entry.outCleanupOnBack.map (fun c => Engine.Ev.replayBack entry.node c) ++
          [Engine.Ev.build entry.node]) := by
  refine ⟨?_, ?_, ?_, ?_, ?_⟩
  · intro hmem
    simp [Engine.start, hmem, Engine.transitionInto, Engine.enterEvents]
  · intro hctx
    simp [Engine.rebuild, hctx]
  · intro hctx houtg hrej hacc
    rw [Engine.next_accepts o v st ctx e E1 E2 hctx houtg hrej hacc]
    simp [Engine.transitionInto, Engine.exitEvents, Engine.enterEvents]
  · intro hctx hterm
    have hempty : (Engine.outgoing st ctx.currentNode).isEmpty = true := by
      rw [hterm]
      rfl
    simp [Engine.next, hctx, hempty, Engine.exitEvents, List.append_assoc]
  · intro hctx hhist hfind huni
    simp only [Engine.goBack, hctx, hhist, hfind]
    rw [if_neg (by simp [huni])]
    simp [Engine.transitionInto, Engine.exitEvents, Engine.enterEvents, List.append_assoc]

/-- Witness for C6 at concrete inputs: all five operation shapes are
evaluated on small workflows: starting, a rebuild, an accepted
transition, a finish, and a backward navigation. -/
theorem c6_lifecycle_order_witness :
    ((Engine.start
      (⟨["z:z", "a:a", "b:b"],
        [⟨"z:z", "a:a", false, Engine.EdgeType.default⟩,
          ⟨"a:a", "b:b", false, Engine.EdgeType.default⟩],
        fun _ => [], fun _ => false, [4],
        some ⟨"a:a", some 0, Engine.TransitionStatus.ready⟩,
        [⟨"z:z", some 0, [2]⟩], []⟩ : Engine.Workflow Nat) "z:z").1.log =
      [Engine.Ev.inHooks "z:z", Engine.Ev.build "z:z"]) ∧
    ((Engine.rebuild
      (⟨["z:z", "a:a", "b:b"],
        [⟨"z:z", "a:a", false, Engine.EdgeType.default⟩,
          ⟨"a:a", "b:b", false, Engine.EdgeType.default⟩],
        fun _ => [], fun _ => false, [4],
        some ⟨"a:a", some 0, Engine.TransitionStatus.ready⟩,
        [⟨"z:z", some 0, [2]⟩], []⟩ : Engine.Workflow Nat)).1.log =
      [Engine.Ev.rebuild "a:a"]) ∧
    ((Engine.next 7
      (⟨["z:z", "a:a", "b:b"],
        [⟨"z:z", "a:a", false, Engine.EdgeType.default⟩,
          ⟨"a:a", "b:b", false, Engine.EdgeType.default⟩],
        fun _ => [], fun _ => false, [4],
        some ⟨"a:a", some 0, Engine.TransitionStatus.ready⟩,
        [⟨"z:z", some 0, [2]⟩], []⟩ : Engine.Workflow Nat)).1.log =
      [Engine.Ev.outHooks "a:a", Engine.Ev.effectCleanups "a:a",
        Engine.Ev.inCleanups "a:a", Engine.Ev.inHooks "b:b", Engine.Ev.build "b:b"]) ∧
    ((Engine.next 7
      (⟨["b:b"], [], fun _ => [], fun _ => false, [4],
        some ⟨"b:b", some 0, Engine.TransitionStatus.ready⟩, [], []⟩ :
        Engine.Workflow Nat)).1.log =
      [Engine.Ev.outHooks "b:b", Engine.Ev.effectCleanups "b:b",
        Engine.Ev.inCleanups "b:b", Engine.Ev.finishNotify 4 7]) ∧
    ((Engine.goBack
      (⟨["z:z", "a:a", "b:b"],
        [⟨"z:z", "a:a", false, Engine.EdgeType.default⟩,
          ⟨"a:a", "b:b", false, Engine.EdgeType.default⟩],
        fun _ => [], fun _ => false, [4],
        some ⟨"a:a", some 0, Engine.TransitionStatus.ready⟩,
        [⟨"z:z", some 0, [2]⟩], []⟩ : Engine.Workflow Nat)).1.log =
      [Engine.Ev.outHooks "a:a", Engine.Ev.effectCleanups "a:a",
        Engine.Ev.inCleanups "a:a", Engine.Ev.inHooks "z:z",
        Engine.Ev.replayBack "z:z" 2, Engine.Ev.build "z:z"]) := by
  have h := c6_lifecycle_order
    (⟨["z:z", "a:a", "b:b"],
      [⟨"z:z", "a:a", false, Engine.EdgeType.default⟩,
        ⟨"a:a", "b:b", false, Engine.EdgeType.default⟩],
      fun _ => [], fun _ => false, [4],
      some ⟨"a:a", some 0, Engine.TransitionStatus.ready⟩,
      [⟨"z:z", some 0, [2]⟩], []⟩ : Engine.Workflow Nat)
    ⟨"a:a", some 0, Engine.TransitionStatus.ready⟩ "z:z" 7 7
    ⟨"a:a", "b:b", false, Engine.EdgeType.default⟩ [] []
    ⟨"z:z", some 0, [2]⟩ [] ⟨"z:z", "a:a", false, Engine.EdgeType.default⟩
  have hfin := c6_lifecycle_order
    (⟨["b:b"], [], fun _ => [], fun _ => false, [4],
      some ⟨"b:b", some 0, Engine.TransitionStatus.ready⟩, [], []⟩ :
      Engine.Workflow Nat)
    ⟨"b:b", some 0, Engine.TransitionStatus.ready⟩ "b:b" 7 7
    ⟨"a:a", "b:b", false, Engine.EdgeType.default⟩ [] []
    ⟨"z:z", some 0, [2]⟩ [] ⟨"z:z", "a:a", false, Engine.EdgeType.default⟩
  refine ⟨?_, ?_, ?_, ?_, ?_⟩
  · rw [h.1 (by simp)]
    rfl
  · rw [h.2.1 rfl]
    rfl
  · rw [h.2.2.1 rfl rfl (by intro e1 he1; simp at he1) rfl]
    rfl
  · rw [hfin.2.2.2.1 rfl rfl]
    rfl
  · rw [h.2.2.2.2 rfl rfl rfl rfl]
    rfl

/-- C9 (amended): the expression compiler cache is an LRU cache of at
most 1000 entries.  A cached compiled function for s is returned
identically by a later call as long as fewer than 1000 distinct other
expressions have been used (compiled or served from the cache) since s
was last used — counting only compilations is not enough, because cache
hits also refresh recency and push older entries toward eviction.
Also: one call never grows the cache beyond 1000 entries, and a miss on
a full cache evicts exactly the first entry in recency order (the least
recently used one). -/
theorem c9_expression_lru (K : Finset String) (st : Expression.ExprState)
    (s : String) (v : Nat) (A B : List (String × Nat)) (ks : List String)
    (hwf : Expression.WF st) (hlen : st.cache.length ≤ Expression.maxCacheSize)
    (hsplit : st.cache = A ++ (s, v) :: B)
    (hB : ∀ b ∈ Expression.keysOf B, b ∈ K) (hks : ∀ k ∈ ks, k ∈ K)
    (hs : s ∉ K) (hK : K.card + 1 ≤ Expression.maxCacheSize) :
    (Expression.expression s (Expression.runExprs ks st)).1 = v ∧
    (∀ (st' : Expression.ExprState) (k : String), Expression.WF st' →
      st'.cache.length ≤ Expression.maxCacheSize →
      (Expression.expression k st').2.cache.length ≤ Expression.maxCacheSize) ∧
    (∀ (st' : Expression.ExprState) (k : String) (p : String × Nat)
      (t : List (String × Nat)), k ∉ Expression.keysOf st'.cache →
      st'.cache = p :: t → Expression.maxCacheSize ≤ st'.cache.length →
      (Expression.expression k st').2.cache = t ++ [(k, st'.counter)]) := by
  refine ⟨?_, ?_, ?_⟩
  · obtain ⟨A', B', hcache, hwf', _, _⟩ :=
      Expression.persists_under_bounded_use K s v ks st A B hwf hlen hsplit hB hks hs hK
    rw [Expression.expression_hit hwf' hcache]
  · intro st' k hwf' hlen'
    exact (Expression.expression_preserves k hwf' hlen').2
  · intro st' k p t hk hc hfull
    rw [Expression.expression_miss_full hk hc hfull]

/-- Witness for C9 at a concrete input: the entry ("x", 5) survives one
interleaved use of the single other expression "y" and the second call
for "x" returns the identical compiled function 5. -/
theorem c9_expression_lru_witness :
    (Expression.expression "x"
      (Expression.runExprs ["y"] ⟨[("x", 5)], 6⟩)).1 = 5 :=
  (c9_expression_lru {"y"} ⟨[("x", 5)], 6⟩ "x" 5 [] [] ["y"]
    (by show (Expression.keysOf [("x", 5)]).Nodup; decide) (by decide) rfl
    (by intro b hb; simp [Expression.keysOf] at hb)
    (by decide) (by decide) (by decide)).1

/-- Counterexample to C9 as stated: compile the 1000 expressions kkey 0
.. kkey 999, then compile s = kkey 1000 (evicting kkey 0 and caching s
as compiled function 1000), then read the 999 surviving old entries
from the cache (cache hits: the unchanged counter in the last conjunct
proves no compilation happens), then compile the single new distinct
expression kkey 1001.  That one compilation — far fewer than 1000 —
evicts s, because the hits moved every other entry behind s in recency
order.  The second call for s therefore compiles afresh and returns
function 1002, not the original function 1000. -/
theorem c9_counterexample :
    (Expression.expression (Expression.kkey 1000)
      (Expression.runExprs
        (((List.range 1000).map Expression.kkey).tail ++ [Expression.kkey 1001])
        (Expression.expression (Expression.kkey 1000)
          (Expression.runExprs ((List.range 1000).map Expression.kkey)
            Expression.initState)).2)).1 ≠
      (Expression.expression (Expression.kkey 1000)
        (Expression.runExprs ((List.range 1000).map Expression.kkey)
          Expression.initState)).1 ∧
    (Expression.expression (Expression.kkey 1000)
      (Expression.runExprs ((List.range 1000).map Expression.kkey)
        Expression.initState)).1 = 1000 ∧
    (Expression.expression (Expression.kkey 1000)
      (Expression.runExprs
        (((List.range 1000).map Expression.kkey).tail ++ [Expression.kkey 1001])
        (Expression.expression (Expression.kkey 1000)
          (Expression.runExprs ((List.range 1000).map Expression.kkey)
            Expression.initState)).2)).1 = 1002 ∧
    (Expression.runExprs (((List.range 1000).map Expression.kkey).tail)
      (Expression.expression (Expression.kkey 1000)
        (Expression.runExprs ((List.range 1000).map Expression.kkey)
          Expression.initState)).2).counter =
      ((Expression.expression (Expression.kkey 1000)
        (Expression.runExprs ((List.range 1000).map Expression.kkey)
          Expression.initState)).2).counter := by
  have hPnodup : ((List.range 1000).map Expression.kkey).Nodup :=
    (List.nodup_range 1000).map Expression.kkey_inj
  have hPlen : ((List.range 1000).map Expression.kkey).length = 1000 := by simp
  obtain ⟨tail, hrun1, hkeys1, hwf1⟩ :=
    Expression.fill_fresh ((List.range 1000).map Expression.kkey)
      Expression.initState (by show (Expression.keysOf []).Nodup; exact List.nodup_nil)
      hPnodup
      (by intro k _ hm; simp [Expression.keysOf, Expression.initState] at hm)
      (by rw [hPlen]; decide)
  have h1 : Expression.runExprs ((List.range 1000).map Expression.kkey)
      Expression.initState = ⟨tail, 1000⟩ := by
    rw [hrun1]
    simp [Expression.initState, hPlen]
  have htaillen : tail.length = 1000 := by
    have := congrArg List.length hkeys1
    simpa [Expression.keysOf, hPlen] using this
  have hwf1' : Expression.WF (⟨tail, 1000⟩ : Expression.ExprState) := by
    rw [← h1]
    exact hwf1
  have hsP : Expression.kkey 1000 ∉ (List.range 1000).map Expression.kkey := by
    intro hm
    rcases List.mem_map.mp hm with ⟨i, hi, hki⟩
    have hieq : i = 1000 := Expression.kkey_inj hki
    rw [hieq] at hi
    simp at hi
  have htP : Expression.kkey 1001 ∉ (List.range 1000).map Expression.kkey := by
    intro hm
    rcases List.mem_map.mp hm with ⟨i, hi, hki⟩
    have hieq : i = 1001 := Expression.kkey_inj hki
    rw [hieq] at hi
    simp at hi
  have hts : Expression.kkey 1001 ≠ Expression.kkey 1000 := by
    intro h
    have := Expression.kkey_inj h
    omega
  obtain ⟨t0, trest, htail⟩ : ∃ t0 trest, tail = t0 :: trest := by
    cases tail with
    | nil => rw [show ([] : List (String × Nat)).length = 0 from rfl] at htaillen; omega
    | cons a b => exact ⟨a, b, rfl⟩
  have hkeystrest : Expression.keysOf trest =
      ((List.range 1000).map Expression.kkey).tail := by
    have hkt : Expression.keysOf (t0 :: trest) = (List.range 1000).map Expression.kkey := by
      rw [← htail]
      exact hkeys1
    have := congrArg List.tail hkt
    simpa [Expression.keysOf] using this
  have hs1 : Expression.kkey 1000 ∉
      Expression.keysOf (⟨tail, 1000⟩ : Expression.ExprState).cache := by
    show Expression.kkey 1000 ∉ Expression.keysOf tail
    rw [hkeys1]
    exact hsP
  have hfull1 : Expression.maxCacheSize ≤
      (⟨tail, 1000⟩ : Expression.ExprState).cache.length := by
    show Expression.maxCacheSize ≤ tail.length
    rw [htaillen]
    decide
  have hx2 : Expression.expression (Expression.kkey 1000) ⟨tail, 1000⟩ =
      (1000, ⟨trest ++ [(Expression.kkey 1000, 1000)], 1001⟩) :=
    @Expression.expression_miss_full ⟨tail, 1000⟩ (Expression.kkey 1000) t0 trest
      hs1 (by rw [htail]) hfull1
  have hconj2 : (Expression.expression (Expression.kkey 1000)
      (Expression.runExprs ((List.range 1000).map Expression.kkey)
        Expression.initState)).1 = 1000 := by
    rw [h1, hx2]
  have hst2 : (Expression.expression (Expression.kkey 1000)
      (Expression.runExprs ((List.range 1000).map Expression.kkey)
        Expression.initState)).2 =
      ⟨trest ++ [(Expression.kkey 1000, 1000)], 1001⟩ := by
    rw [h1, hx2]
  have hwf2 : Expression.WF
      (⟨trest ++ [(Expression.kkey 1000, 1000)], 1001⟩ : Expression.ExprState) := by
    have hp := Expression.expression_preserves (Expression.kkey 1000) hwf1'
      (by rw [show (⟨tail, 1000⟩ : Expression.ExprState).cache = tail from rfl, htaillen]
          decide)
    rw [hx2] at hp
    exact hp.1
  have hhits : Expression.runExprs (Expression.keysOf trest)
      ⟨trest ++ [(Expression.kkey 1000, 1000)], 1001⟩ =
      ⟨[(Expression.kkey 1000, 1000)] ++ trest, 1001⟩ :=
    Expression.hit_all_front trest [(Expression.kkey 1000, 1000)] _ hwf2 rfl
  have hconj4 : (Expression.runExprs (((List.range 1000).map Expression.kkey).tail)
      (Expression.expression (Expression.kkey 1000)
        (Expression.runExprs ((List.range 1000).map Expression.kkey)
          Expression.initState)).2).counter =
      ((Expression.expression (Expression.kkey 1000)
        (Expression.runExprs ((List.range 1000).map Expression.kkey)
          Expression.initState)).2).counter := by
    rw [hst2, ← hkeystrest, hhits]
  have hsnotrest : Expression.kkey 1000 ∉ Expression.keysOf trest := by
    intro hm
    apply hsP
    rw [← hkeys1, htail]
    exact List.mem_cons.mpr (Or.inr hm)
  have htnot3 : Expression.kkey 1001 ∉
      Expression.keysOf ([(Expression.kkey 1000, 1000)] ++ trest) := by
    intro hm
    rcases List.mem_cons.mp (show Expression.kkey 1001 ∈
      Expression.kkey 1000 :: Expression.keysOf trest from hm) with h | h
    · exact hts h
    · apply htP
      rw [← hkeys1, htail]
      exact List.mem_cons.mpr (Or.inr h)
  have htrestlen : trest.length = 999 := by
    rw [htail] at htaillen
    simp at htaillen
    omega
  have hfull3 : Expression.maxCacheSize ≤
      ([(Expression.kkey 1000, 1000)] ++ trest).length := by
    simp [htrestlen, Expression.maxCacheSize]
  have hx4 : Expression.expression (Expression.kkey 1001)
      ⟨[(Expression.kkey 1000, 1000)] ++ trest, 1001⟩ =
      (1001, ⟨trest ++ [(Expression.kkey 1001, 1001)], 1002⟩) :=
    @Expression.expression_miss_full
      ⟨[(Expression.kkey 1000, 1000)] ++ trest, 1001⟩ (Expression.kkey 1001)
      (Expression.kkey 1000, 1000) trest htnot3 rfl hfull3
  have hs4 : Expression.kkey 1000 ∉
      Expression.keysOf (trest ++ [(Expression.kkey 1001, 1001)]) := by
    intro hm
    have heq : Expression.keysOf (trest ++ [(Expression.kkey 1001, 1001)]) =
        Expression.keysOf trest ++ [Expression.kkey 1001] := by
      simp [Expression.keysOf]
    rw [heq] at hm
    rcases List.mem_append.mp hm with h | h
    · exact hsnotrest h
    · have hk : Expression.kkey 1000 = Expression.kkey 1001 := by simpa using h
      exact hts hk.symm
  have hfinal : (Expression.expression (Expression.kkey 1000)
      (⟨trest ++ [(Expression.kkey 1001, 1001)], 1002⟩ : Expression.ExprState)).1 =
      1002 :=
    Expression.expression_miss_fst hs4
  have hsplit45 : Expression.runExprs
      (((List.range 1000).map Expression.kkey).tail ++ [Expression.kkey 1001])
      (⟨trest ++ [(Expression.kkey 1000, 1000)], 1001⟩ : Expression.ExprState) =
      (Expression.expression (Expression.kkey 1001)
        (Expression.runExprs (((List.range 1000).map Expression.kkey).tail)
          ⟨trest ++ [(Expression.kkey 1000, 1000)], 1001⟩)).2 := by
    simp [Expression.runExprs, List.foldl_append]
  have hconj3 : (Expression.expression (Expression.kkey 1000)
      (Expression.runExprs
        (((List.range 1000).map Expression.kkey).tail ++ [Expression.kkey 1001])
        (Expression.expression (Expression.kkey 1000)
          (Expression.runExprs ((List.range 1000).map Expression.kkey)
            Expression.initState)).2)).1 = 1002 := by
    rw [hst2, hsplit45, ← hkeystrest, hhits, hx4]
    exact hfinal
  refine ⟨?_, hconj2, hconj3, hconj4⟩
  rw [hconj2, hconj3]
  decide

/-- C5: spec-modelled.  For a pending transitionIn hook task with
stamped generation s, uniquely pending for hook id: if it resolves
after the node has exited (stamp differs from the current generation),
the cleanup runs immediately at resolution, exactly once, and is never
run again by any later operations (exits included); if it resolves
while the node is still current (stamp equals the generation), the
cleanup is stored like a synchronous one and the next exit runs it
exactly once; a rejection is caught, runs nothing and never interrupts
the machine (step is total and leaves the log untouched). -/
theorem c5_async_hook_resolution (st : Hooks.HookState)
    (A B : List (Nat × Nat)) (id s : Nat) (ops : List Hooks.HookOp)
    (hsplit : st.pending = A ++ (id, s) :: B)
    (hA : ∀ p ∈ A, p.1 ≠ id) (hB : ∀ p ∈ B, p.1 ≠ id)
    (hstored : ∀ p ∈ st.stored, p.1 ≠ id)
    (hops : ∀ op ∈ ops, op ≠ Hooks.HookOp.dispatch id) :
    (s ≠ st.gen →
      (Hooks.step st (Hooks.HookOp.resolve id)).log = st.log ++ [id] ∧
      (Hooks.run (Hooks.step st (Hooks.HookOp.resolve id)) ops).log.count id =
        st.log.count id + 1) ∧
    (s = st.gen →
      (Hooks.step st (Hooks.HookOp.resolve id)).log = st.log ∧
      (Hooks.step st (Hooks.HookOp.resolve id)).stored = st.stored ++ [(id, s)] ∧
      (Hooks.run (Hooks.step (Hooks.step st (Hooks.HookOp.resolve id)) Hooks.HookOp.exit)
          ops).log.count id = st.log.count id + 1) ∧
    (Hooks.step st (Hooks.HookOp.reject id)).log = st.log := by
  have hfind : st.pending.find? (fun p => p.1 == id) = some (id, s) := by
    rw [hsplit]
    exact Hooks.find_id_append hA
  have herase : st.pending.eraseP (fun q => q.1 == id) = A ++ B := by
    rw [hsplit]
    exact Hooks.eraseP_id_append hA
  have hAB : ∀ p ∈ A ++ B, p.1 ≠ id := by
    intro p hpmem
    rcases List.mem_append.mp hpmem with h | h
    · exact hA p h
    · exact hB p h
  refine ⟨?_, ?_, rfl⟩
  · intro hne
    have hstep : Hooks.step st (Hooks.HookOp.resolve id) =
        ⟨st.gen, A ++ B, st.stored, st.log ++ [id]⟩ := by
      simp only [Hooks.step, hfind, herase]
      rw [if_neg hne]
    refine ⟨by rw [hstep], ?_⟩
    rw [Hooks.run_count_stable id ops _ (by rw [hstep]; exact hAB)
      (by rw [hstep]; exact hstored) hops]
    rw [hstep]
    simp
  · intro heq
    have hstep : Hooks.step st (Hooks.HookOp.resolve id) =
        ⟨st.gen, A ++ B, st.stored ++ [(id, s)], st.log⟩ := by
      simp only [Hooks.step, hfind, herase]
      rw [if_pos heq]
    have hexit : Hooks.step (Hooks.step st (Hooks.HookOp.resolve id)) Hooks.HookOp.exit =
        ⟨st.gen + 1, A ++ B, [], st.log ++ (st.stored ++ [(id, s)]).map Prod.fst⟩ := by
      rw [hstep]
      rfl
    refine ⟨by rw [hstep], by rw [hstep], ?_⟩
    rw [Hooks.run_count_stable id ops _ (by rw [hexit]; exact hAB)
      (by rw [hexit]; simp) hops]
    rw [hexit]
    simp only [List.count_append, List.map_append]
    have hz : List.count id (st.stored.map Prod.fst) = 0 := by
      rw [List.count_eq_zero]
      intro hmem
      obtain ⟨p, hpmem, hfst⟩ := List.mem_map.mp hmem
      exact hstored p hpmem hfst
    simp [hz]

/-- Witness for C5 at a concrete input: hook 7 was dispatched at
generation 1, the node exited (generation now 2), then the hook
resolves: the cleanup runs immediately and a later exit-enter-exit
sequence never runs it again. -/
theorem c5_async_hook_resolution_witness :
    (Hooks.step ⟨2, [(7, 1)], [], []⟩ (Hooks.HookOp.resolve 7)).log = [7] ∧
    (Hooks.run (Hooks.step ⟨2, [(7, 1)], [], []⟩ (Hooks.HookOp.resolve 7))
      [Hooks.HookOp.exit, Hooks.HookOp.enter, Hooks.HookOp.exit]).log.count 7 = 1 := by
  have h := c5_async_hook_resolution ⟨2, [(7, 1)], [], []⟩ [] [] 7 1
    [Hooks.HookOp.exit, Hooks.HookOp.enter, Hooks.HookOp.exit]
    rfl (by simp) (by simp) (by simp) (by decide)
  have hl := h.1 (by decide)
  exact ⟨hl.1, by simpa using hl.2⟩

/-- C7: spec-modelled.  creator(name?, config?) validates the config
against configSchema and fails with a ValidationError when invalid;
on success it returns a StepInstance whose id is the kind and the name
joined by a colon, the name defaulting to the kind; and two calls of
the same creator yield independent instances: distinct fresh store
handles, both initialized from the store factory, and writing through
one handle never changes what the other handle reads. -/
theorem c7_step_creator {Cfg V : Type} (d : StepFactory.StepDefinition Cfg V)
    (nameArg : Option String) (config : Cfg) (w : StepFactory.StoreWorld V) :
    (d.configSchema config = false →
      StepFactory.creator d nameArg config w =
        Except.error StepFactory.CreationError.validationError) ∧
    (d.configSchema config = true →
      ∃ w', StepFactory.creator d nameArg config w =
        Except.ok
          (⟨d.kind ++ ":" ++ nameArg.getD d.kind, d.kind, nameArg.getD d.kind, config,
            d.createStore.map (fun _ => w.heap.length)⟩, w')) ∧
    (∀ s0, d.createStore = some s0 →
      ∀ n1 n2 c1 c2, d.configSchema c1 = true → d.configSchema c2 = true →
      ∃ i1 w1 i2 w2,
        StepFactory.creator d n1 c1 w = Except.ok (i1, w1) ∧
        StepFactory.creator d n2 c2 w1 = Except.ok (i2, w2) ∧
        ∃ h1 h2, i1.storeHandle = some h1 ∧ i2.storeHandle = some h2 ∧ h1 ≠ h2 ∧
          StepFactory.readStore w2 h1 = some s0 ∧
          StepFactory.readStore w2 h2 = some s0 ∧
          ∀ v, StepFactory.readStore (StepFactory.writeStore w2 h2 v) h1 = some s0 ∧
            StepFactory.readStore (StepFactory.writeStore w2 h1 v) h2 = some s0) := by
  refine ⟨?_, ?_, ?_⟩
  · intro hval
    simp [StepFactory.creator, hval]
  · intro hval
    cases hs : d.createStore with
    | none => exact ⟨w, by simp [StepFactory.creator, hval, hs]⟩
    | some s0 => exact ⟨⟨w.heap ++ [s0]⟩, by simp [StepFactory.creator, hval, hs]⟩
  · intro s0 hs n1 n2 c1 c2 hv1 hv2
    refine ⟨⟨d.kind ++ ":" ++ n1.getD d.kind, d.kind, n1.getD d.kind, c1,
        some w.heap.length⟩,
      ⟨w.heap ++ [s0]⟩,
      ⟨d.kind ++ ":" ++ n2.getD d.kind, d.kind, n2.getD d.kind, c2,
        some (w.heap ++ [s0]).length⟩,
      ⟨(w.heap ++ [s0]) ++ [s0]⟩,
      by simp [StepFactory.creator, hv1, hs], by simp [StepFactory.creator, hv2, hs],
      w.heap.length, (w.heap ++ [s0]).length, rfl, rfl, by simp, ?_, ?_, ?_⟩
    · show ((w.heap ++ [s0]) ++ [s0])[w.heap.length]? = some s0
      rw [List.getElem?_append_left (by simp)]
      exact List.getElem?_concat_length w.heap s0
    · exact List.getElem?_concat_length _ s0
    · intro v
      have hlt : w.heap.length ≠ (w.heap ++ [s0]).length := by simp
      constructor
      · show (((w.heap ++ [s0]) ++ [s0]).set (w.heap ++ [s0]).length v)[w.heap.length]? =
          some s0
        rw [List.getElem?_set_ne (Ne.symm hlt)]
        rw [List.getElem?_append_left (by simp)]
        exact List.getElem?_concat_length w.heap s0
      · show (((w.heap ++ [s0]) ++ [s0]).set w.heap.length v)[(w.heap ++ [s0]).length]? =
          some s0
        rw [List.getElem?_set_ne hlt]
        exact List.getElem?_concat_length _ s0

/-- C4: spec-modelled.  For one effect across builds: with deps = []
at every build the effect executes exactly once no matter how many
rebuilds happen; with deps = [x] it re-executes on a rebuild exactly
when x is shallowly unequal to its value at the previous build; with
deps omitted it re-executes on every rebuild, running its previous
cleanup first. -/
theorem c4_effect_deps {V : Type} [DecidableEq V]
    (depsAt : Nat → Option (List V)) (x : Nat → V) (n b : Nat) :
    ((∀ i, depsAt i = some []) → Effects.runsAfter depsAt n = 1) ∧
    ((∀ i, depsAt i = some [x i]) →
      Effects.runsAfter depsAt (b + 1) =
        Effects.runsAfter depsAt b + (if x b = x (b + 1) then 0 else 1)) ∧
    ((∀ i, depsAt i = none) →
      Effects.runsAfter depsAt n = n + 1 ∧
      Effects.rebuildEvents (depsAt b) (depsAt (b + 1)) =
        [Effects.EffEvent.cleanup, Effects.EffEvent.run]) := by
  refine ⟨?_, ?_, ?_⟩
  · intro h
    induction n with
    | zero => rfl
    | succ m ih =>
      simp only [Effects.runsAfter, h, Effects.shouldRerun]
      simp [ih]
  · intro h
    simp only [Effects.runsAfter, h, Effects.shouldRerun]
    by_cases hx : x b = x (b + 1)
    · simp [hx]
    · simp [hx]
  · intro h
    constructor
    · induction n with
      | zero => rfl
      | succ m ih =>
        simp only [Effects.runsAfter, h, Effects.shouldRerun]
        simp [ih]
    · simp [Effects.rebuildEvents, h, Effects.shouldRerun]

/-- Witness for C4 at concrete inputs: constant empty deps over five
rebuilds give one execution; deps [i or constant] re-execute exactly on
change; omitted deps re-execute every rebuild with cleanup first. -/
theorem c4_effect_deps_witness :
    (Effects.runsAfter (V := Nat) (fun _ => some []) 5 = 1) ∧
    (Effects.runsAfter (V := Nat) (fun i => some [i / 2]) 3 =
      Effects.runsAfter (V := Nat) (fun i => some [i / 2]) 2 +
        (if (2 : Nat) / 2 = 3 / 2 then 0 else 1)) ∧
    (Effects.runsAfter (V := Nat) (fun _ => none) 5 = 6) := by
  have h1 := c4_effect_deps (V := Nat) (fun _ => some []) (fun i => i) 5 0
  have h2 := c4_effect_deps (V := Nat) (fun i => some [i / 2]) (fun i => i / 2) 3 2
  have h3 := c4_effect_deps (V := Nat) (fun _ => none) (fun i => i) 5 0
  exact ⟨h1.1 (fun _ => rfl), h2.2.1 (fun _ => rfl), (h3.2.2 (fun _ => rfl)).1⟩

/-- Witness for C7: a concrete definition with kind "counter", a parity
validator on Nat configs and store factory 0; the invalid creation, the
default name, and the store independence conclusions are all evaluated. -/
theorem c7_step_creator_witness :
    ((⟨"counter", fun c => c % 2 == 0, some 0⟩ :
        StepFactory.StepDefinition Nat Nat).configSchema 1 = false) ∧
    ((⟨"counter", fun c => c % 2 == 0, some 0⟩ :
        StepFactory.StepDefinition Nat Nat).configSchema 2 = true) ∧
    (StepFactory.creator (⟨"counter", fun c => c % 2 == 0, some 0⟩ :
        StepFactory.StepDefinition Nat Nat) none 1 ⟨[]⟩ =
      Except.error StepFactory.CreationError.validationError) ∧
    (∃ w', StepFactory.creator (⟨"counter", fun c => c % 2 == 0, some 0⟩ :
        StepFactory.StepDefinition Nat Nat) none 2 ⟨[]⟩ =
      Except.ok (⟨"counter:counter", "counter", "counter", 2, some 0⟩, w')) := by
  have h := c7_step_creator (⟨"counter", fun c => c % 2 == 0, some 0⟩ :
    StepFactory.StepDefinition Nat Nat) none 2 ⟨[]⟩
  have h1 := c7_step_creator (⟨"counter", fun c => c % 2 == 0, some 0⟩ :
    StepFactory.StepDefinition Nat Nat) none 1 ⟨[]⟩
  refine ⟨rfl, rfl, h1.1 rfl, ?_⟩
  obtain ⟨w', hw'⟩ := h.2.1 rfl
  exact ⟨w', hw'⟩

/-- Witness for C10 at concrete inputs: a two entry API with one action
and one plain value; the missing action case, the throwing action case
and the succeeding action case are all exercised. -/
theorem c10_executor_total_witness :
    (AIExec.execute (V := Nat) (Except.error "boom") "Step.go" =
      ⟨false, none, some "boom"⟩) ∧
    (AIExec.execute (V := Nat)
        (Except.ok [("go", AIExec.ApiValue.action (Except.ok 7)),
          ("data", AIExec.ApiValue.plainValue)]) "Step.missing" =
      ⟨false, none, some "Unknown action: missing. Available actions: go"⟩) ∧
    (AIExec.execute (V := Nat)
        (Except.ok [("go", AIExec.ApiValue.action (Except.ok 7))]) "Step.go" =
      ⟨true, some 7, none⟩) := by
  have h1 := c10_executor_total (V := Nat)
    [("go", AIExec.ApiValue.action (Except.ok 7)), ("data", AIExec.ApiValue.plainValue)]
    "Step.missing" "boom" 7
  have h2 := c10_executor_total (V := Nat)
    [("go", AIExec.ApiValue.action (Except.ok 7))] "Step.go" "boom" 7
  refine ⟨h2.1, ?_, ?_⟩
  · exact (h1.2.1 rfl).trans rfl
  · exact h2.2.2.2 rfl

end MotifTsClaims
